import Mathlib

/-!
Verification of the range-addressing and data-extraction engine of the
`agent-xlsx` repository, as a shallow embedding in Lean 4.

The Python sources embedded here:
  * `src/agent_xlsx/utils/validation.py`  — column codec, range parsing
  * `src/agent_xlsx/utils/dataframe.py`   — `apply_compact`
  * `src/agent_xlsx/utils/dates.py`       — `excel_serial_to_isodate`
  * `src/agent_xlsx/adapters/polars_adapter.py` —
      `read_exact_range`, `read_multi_ranges`, `_read_chunked`,
      `read_sheet_data`, `search_values`
  * `src/agent_xlsx/commands/read.py`     — `_read_single_range`
  * `src/agent_xlsx/commands/search.py`   — `search` (truncation metadata)

Sheets are modelled as rectangular grids of abstract cell values (a list of
rows); Polars DataFrames holding a rectangular slice are modelled the same
way.  Excel floats are modelled as exact rationals plus an explicit NaN
constructor.  Python exceptions are modelled with `Except String`.
-/

namespace AgentXlsx

/-! ## ColumnCodec — `utils/validation.py`, `col_letter_to_index` / `index_to_col_letter` -/

/-- Embeds `col_letter_to_index` (validation.py:124-129):
`result = result * 26 + (ord(ch) - ord("A") + 1)` over `col.upper()`,
then `result - 1`.  Works over the character list of the string. -/
def col_letter_to_index (cs : List Char) : Int :=
  (cs.foldl (fun r c => r * 26 + ((c.toUpper.toNat : Int) - 64)) 0) - 1

/-- Loop of `index_to_col_letter` (validation.py:132-139): repeated
`divmod(idx - 1, 26)` prepending `chr(65 + remainder)` while `idx > 0`. -/
def indexToLetterLoop (n : Nat) : List Char :=
  if _h : 0 < n then
    indexToLetterLoop ((n - 1) / 26) ++ [Char.ofNat (65 + (n - 1) % 26)]
  else []
termination_by n
decreasing_by
  have h1 : (n - 1) / 26 ≤ n - 1 := Nat.div_le_self _ _
  omega

/-- Embeds `index_to_col_letter` (validation.py:132-139): starts the loop
at `index + 1`. -/
def index_to_col_letter (index : Nat) : List Char :=
  indexToLetterLoop (index + 1)

/-- Value of a letter list under the fold of `col_letter_to_index` (before
the final `- 1`). -/
def colVal (cs : List Char) : Int :=
  cs.foldl (fun r c => r * 26 + ((c.toUpper.toNat : Int) - 64)) 0

/-! ## AddressParser — `utils/validation.py`, `parse_range` / `parse_multi_range`

`_RANGE_RE` is `^(?:(?P<sheet>.+?)!)?(?P<start>[A-Z]{1,3}\d+)(?::(?P<end>[A-Z]{1,3}\d+))?$`
with `re.IGNORECASE`.  Because the cell patterns cannot contain `!`, a
successful match must split the input at its *last* `!`; the lazy sheet
group `.+?` requires a non-empty sheet that contains no newline (`.` does
not match `\n`).  The matcher below implements exactly that semantics
deterministically. -/

/-- Embeds `_normalise_shell_ref` (validation.py:75-82):
Python `ref.replace("\\!", "!")` — left-to-right, non-overlapping
replacement of the two-character sequence `\!` by `!`. -/
def normaliseShellRef : List Char → List Char
  | [] => []
  | [c] => [c]
  | c1 :: c2 :: rest =>
    if c1 = '\\' ∧ c2 = '!' then '!' :: normaliseShellRef rest
    else c1 :: normaliseShellRef (c2 :: rest)

/-- Embeds Python `str.strip()` (whitespace at both ends). -/
def stripChars (cs : List Char) : List Char :=
  ((cs.dropWhile Char.isWhitespace).reverse.dropWhile Char.isWhitespace).reverse

/-- Matches the regex token `[A-Z]{1,3}\d+` (with `re.IGNORECASE`) against a
whole string: one to three letters followed by one or more digits. -/
def isCellToken (cs : List Char) : Bool :=
  let letters := cs.takeWhile Char.isAlpha
  let rest := cs.dropWhile Char.isAlpha
  decide (1 ≤ letters.length) && decide (letters.length ≤ 3) &&
    !rest.isEmpty && rest.all Char.isDigit

/-- Splits a string at its last `'!'`: returns `(before, after)` where
`after` contains no `'!'`, or `none` when the string has no `'!'`. -/
def splitLastBang : List Char → Option (List Char × List Char)
  | [] => none
  | c :: rest =>
    match splitLastBang rest with
    | some (a, b) => some (c :: a, b)
    | none => if c = '!' then some ([], rest) else none

/-- Is the character not a colon?  (Segment separator for `start:end`.) -/
def notColon (c : Char) : Bool := c ≠ ':'

/-- Matches `start(?::end)?$` where both cells are `[A-Z]{1,3}\d+`: the
start cell is the segment before the first `':'` (cells cannot contain
`':'`), the optional end cell is the remainder. -/
def matchCellRange (cs : List Char) : Option (List Char × Option (List Char)) :=
  match cs.dropWhile notColon with
  | [] =>
    if isCellToken (cs.takeWhile notColon) then some (cs.takeWhile notColon, none) else none
  | _ :: b =>
    if isCellToken (cs.takeWhile notColon) && isCellToken b then
      some (cs.takeWhile notColon, some b)
    else none

/-- Result of `parse_range` (validation.py:85-97): the dict
`{sheet, start, end}`.  `end` is a Python keyword-free name there; Lean
reserves `end`, so the field is called `stop`. -/
structure ParsedRange where
  sheet : Option (List Char)
  start : List Char
  stop : Option (List Char)
deriving DecidableEq, Repr

/-- Uppercasing used for the `start`/`end` outputs (`.upper()`). -/
def upperChars (cs : List Char) : List Char := cs.map Char.toUpper

/-- The full-string match of `_RANGE_RE` on already normalised and stripped
text, producing the groups `parse_range` returns (sheet verbatim,
start/end uppercased). -/
def matchRange (cs : List Char) : Option ParsedRange :=
  match splitLastBang cs with
  | none =>
    (matchCellRange cs).map fun se => ⟨none, upperChars se.1, se.2.map upperChars⟩
  | some (sh, rest) =>
    if sh.isEmpty || sh.contains '\n' then none
    else (matchCellRange rest).map fun se => ⟨some sh, upperChars se.1, se.2.map upperChars⟩

/-- Embeds `parse_range` (validation.py:85-97): normalise shell escapes,
strip surrounding whitespace, match the range regex.  `none` models the
raised `RangeInvalidError`. -/
def parse_range (cs : List Char) : Option ParsedRange :=
  matchRange (stripChars (normaliseShellRef cs))

/-- Embeds Python `str.split(sep)` for a single-character separator:
splits at every occurrence, keeping empty pieces.  (The recursive result is
never empty, so prepending to its first piece via `headI` is exact.) -/
def splitOnChar (sep : Char) : List Char → List (List Char)
  | [] => [[]]
  | c :: rest =>
    if c = sep then [] :: splitOnChar sep rest
    else (c :: (splitOnChar sep rest).headI) :: (splitOnChar sep rest).tail

/-- Per-token parse of `parse_multi_range` (validation.py:110-117): the
token is already stripped; if it contains `'!'` parse it as-is, else join
it with the carried sheet context (when truthy — `elif sheet_ctx:`) and
parse, else parse bare. -/
def tokenParse (part : List Char) (ctx : Option (List Char)) : Option ParsedRange :=
  if part.contains '!' then parse_range part
  else
    match ctx with
    | some c => if c.isEmpty then parse_range part else parse_range (c ++ '!' :: part)
    | none => parse_range part

/-- Context update of `parse_multi_range` (validation.py:118-119): a truthy
parsed sheet (`if parsed["sheet"]:`) becomes the new context. -/
def ctxUpdate (ctx : Option (List Char)) (pr : ParsedRange) : Option (List Char) :=
  match pr.sheet with
  | some sh => if sh.isEmpty then ctx else some sh
  | none => ctx

/-- Loop of `parse_multi_range` (validation.py:107-121): strip each token,
parse it against the running context, abort on failure
(`RangeInvalidError`), collect the results in order. -/
def multiLoop : List (List Char) → Option (List Char) → Option (List ParsedRange)
  | [], _ => some []
  | p :: rest, ctx =>
    match tokenParse (stripChars p) ctx with
    | none => none
    | some pr => (multiLoop rest (ctxUpdate ctx pr)).map (pr :: ·)

/-- Embeds `parse_multi_range` (validation.py:100-121). -/
def parse_multi_range (cs : List Char) : Option (List ParsedRange) :=
  multiLoop (splitOnChar ',' cs) none

/-! ### Spec-side grammar (from the spec's words, for the C7 exactness claim) -/

/-- Spec grammar: a cell is 1–3 letters followed by digits. -/
def IsCell (cs : List Char) : Prop :=
  ∃ ls ds, cs = ls ++ ds ∧ 1 ≤ ls.length ∧ ls.length ≤ 3 ∧
    (∀ c ∈ ls, c.isAlpha) ∧ ds ≠ [] ∧ (∀ c ∈ ds, c.isDigit)

/-- Spec grammar: a start cell with an optional `:end-cell`. -/
def IsCellRange (cs : List Char) : Prop :=
  IsCell cs ∨ ∃ a b, cs = a ++ ':' :: b ∧ IsCell a ∧ IsCell b

/-- Spec grammar: optional `SheetName!` (sheet = everything before the last
`!`, non-empty, no newline) then a cell range. -/
def Grammatical (cs : List Char) : Prop :=
  ('!' ∉ cs ∧ IsCellRange cs) ∨
    ∃ sh rest, cs = sh ++ '!' :: rest ∧ sh ≠ [] ∧ '\n' ∉ sh ∧ '!' ∉ rest ∧
      IsCellRange rest

/-- Invariant on the carried sheet context: non-empty, backslash-free,
starting with a non-whitespace character. -/
def CtxOK : Option (List Char) → Prop
  | none => True
  | some c => c ≠ [] ∧ '\\' ∉ c ∧ ∀ x, c.head? = some x → x.isWhitespace = false

/-! ## RangeReader — sheets, `read_exact_range`, `_read_single_range`,
`read_multi_ranges`

A sheet is a rectangular grid of abstract cell values: `rows` lists the
raw sheet rows (Excel row `N` is `rows[N-1]`), each of length `width`.
A Polars DataFrame holding a rectangular slice is modelled as its list of
rows. -/

structure Sheet (α : Type) where
  width : Nat
  rows : List (List α)

/-- Rectangularity: every row has exactly `width` cells. -/
def Sheet.Rect {α : Type} (s : Sheet α) : Prop :=
  ∀ r ∈ s.rows, r.length = s.width

/-- Decimal digit characters of `n` (Python `str(int)` for non-negative
numbers), used to build concrete cell references. -/
def natDigitsLoop (n : Nat) : List Char :=
  if _h : 0 < n then natDigitsLoop (n / 10) ++ [Char.ofNat (48 + n % 10)]
  else []
termination_by n
decreasing_by
  exact Nat.div_lt_self _h (by omega)

def natDigits (n : Nat) : List Char :=
  if n = 0 then ['0'] else natDigitsLoop n

/-- Python `int(...)` over the digit characters of a cell reference:
errors (`ValueError`) on an empty digit string. -/
def digitsVal (ds : List Char) : Nat :=
  ds.foldl (fun n c => n * 10 + (c.toNat - 48)) 0

def digitsToNat? (ds : List Char) : Option Nat :=
  if ds = [] then none else some (digitsVal ds)

/-- `"".join(c for c in ref if c.isalpha())` (read.py:436). -/
def lettersOf (cs : List Char) : List Char := cs.filter Char.isAlpha

/-- `"".join(c for c in ref if c.isdigit())` (read.py:437). -/
def digitsOf (cs : List Char) : List Char := cs.filter Char.isDigit

/-- The regex `^([A-Z]+)(\d+)$` applied to `ref.upper()`
(polars_adapter.py:195, 204): letters group and row number, or `none`. -/
def regexColRow (cs : List Char) : Option (List Char × Nat) :=
  if (upperChars cs).takeWhile Char.isAlpha ≠ [] ∧
      (upperChars cs).dropWhile Char.isAlpha ≠ [] ∧
      ((upperChars cs).dropWhile Char.isAlpha).all Char.isDigit then
    some ((upperChars cs).takeWhile Char.isAlpha,
      digitsVal ((upperChars cs).dropWhile Char.isAlpha))
  else none

/-- Embeds `read_exact_range` (polars_adapter.py:109-146): a raw
(`header_row=None`) fastexcel load with `skip_rows = start_row - 1`,
`n_rows = end_row - start_row + 1` and
`use_columns = [start_col_idx … end_col_idx]`.  fastexcel raises when a
requested column index is not present in the sheet; the renaming to
Excel letters does not change the cell grid. -/
def read_exact_range {α : Type} (s : Sheet α)
    (start_col_idx end_col_idx start_row end_row : Nat) :
    Except String (List (List α)) :=
  if end_col_idx < s.width then
    .ok (((s.rows.drop (start_row - 1)).take (end_row + 1 - start_row)).map
      fun r => (r.drop start_col_idx).take (end_col_idx + 1 - start_col_idx))
  else
    .error "column index out of bounds"

/-- The out-of-bounds warning text shared by `_read_single_range`
(read.py:461-464) and `read_multi_ranges` (polars_adapter.py:222-226). -/
def oobWarning (endColLetters : List Char) (clampedIdx : Nat) (omitted : Int) : String :=
  "Requested through column " ++ String.mk endColLetters ++
    " but sheet only has data through " ++
    String.mk (index_to_col_letter clampedIdx) ++ ". " ++
    toString omitted ++ " column(s) omitted."

/-- The end-column clamp shared by both read paths (read.py:453-465,
polars_adapter.py:215-227): when the requested end column exceeds the
sheet's last column, clamp to `max(sheet_max, start_col)` and emit a
warning naming the omitted count when it is positive.  Arithmetic is on
`Int` exactly as in Python (`sheet_max = width - 1` may be `-1`). -/
def clampEndCol (width : Nat) (start_col_idx end_col_idx : Int)
    (endColLetters : List Char) : Int × Option String :=
  if end_col_idx > (width : Int) - 1 then
    (max ((width : Int) - 1) start_col_idx,
      if end_col_idx - max ((width : Int) - 1) start_col_idx > 0 then
        some (oobWarning endColLetters (max ((width : Int) - 1) start_col_idx).toNat
          (end_col_idx - max ((width : Int) - 1) start_col_idx))
      else none)
  else (end_col_idx, none)

/-- Embeds the range branch of `_read_single_range` (read.py:420-478):
letters/digits extraction from the parsed refs, end fallback to the start
cell, the dimension-based end-column clamp, then `read_exact_range`.
`.error` models the Python exceptions (`ValueError` from `int("")`,
fastexcel column-out-of-bounds). -/
def readSingleRange {α : Type} (s : Sheet α) (ri : ParsedRange) :
    Except String (List (List α) × Option String) :=
  let start_col := lettersOf ri.start
  match digitsToNat? (digitsOf ri.start) with
  | none => .error "invalid literal for int()"
  | some start_row =>
    let ec :=
      match ri.stop with
      | some e => if e = [] then (start_col, some start_row) else
          (lettersOf e, digitsToNat? (digitsOf e))
      | none => (start_col, some start_row)
    match ec.2 with
    | none => .error "invalid literal for int()"
    | some end_row =>
      let start_col_idx : Int := col_letter_to_index start_col
      let end_col_idx : Int := col_letter_to_index ec.1
      let cw := clampEndCol s.width start_col_idx end_col_idx ec.1
      (read_exact_range s start_col_idx.toNat cw.1.toNat start_row end_row).map
        fun df => (df, cw.2)

/-- One range sliced from the batch-loaded sheet
(polars_adapter.py:185-240).  `fullRows` is the header-consumed DataFrame
(`df row i` = Excel row `i + 2`), `width` its column count; columns are
named with Excel letters, so the name-membership test
`c in df_slice.columns` is the test `index < width` on the letter's index
(letters are injective, see `letter_mem_all_iff`). -/
def readOneFromBatch {α : Type} (fullRows : List (List α)) (width : Nat)
    (ri : ParsedRange) : List (List α) × Option String :=
  if ri.start = [] then (fullRows, none)
  else
    match regexColRow ri.start with
    | none => ([], some ("Invalid range start: " ++ String.mk ri.start))
    | some sr =>
      let start_col_idx : Nat := (col_letter_to_index sr.1).toNat
      let start_row : Nat := sr.2
      let er :=
        match ri.stop with
        | some e =>
          if e = [] then (start_col_idx, start_row, ri.start) else
            match regexColRow e with
            | some ee => ((col_letter_to_index ee.1).toNat, ee.2, ee.1)
            | none => (start_col_idx, start_row, ri.start)
        | none => (start_col_idx, start_row, ri.start)
      let cw := clampEndCol width start_col_idx er.1 er.2.2
      let end_col_idx : Nat := cw.1.toNat
      let n_rows : Nat := er.2.1 + 1 - start_row
      let df_slice := (fullRows.drop ((start_row : Int) - 2).toNat).take n_rows
      let col_letters_range :=
        (List.range (end_col_idx + 1 - start_col_idx)).map
          fun i => index_to_col_letter (start_col_idx + i)
      let all_letters := (List.range width).map index_to_col_letter
      let available_cols := col_letters_range.filter (· ∈ all_letters)
      if available_cols.isEmpty then (df_slice, cw.2)
      else
        (df_slice.map fun r =>
          available_cols.filterMap fun l => (all_letters.indexOf? l).bind r.get?,
         cw.2)

/-- Embeds `read_multi_ranges` (polars_adapter.py:149-242): one full
header-mode load of the sheet (`full_df` rows are Excel rows 2…), then
each range sliced from memory.  The returned row-1 header names are not
modelled (the claims compare the data blocks). -/
def read_multi_ranges {α : Type} (s : Sheet α) (ranges : List ParsedRange) :
    List (List (List α) × Option String) :=
  let fullRows := s.rows.drop 1
  ranges.map (readOneFromBatch fullRows s.width)

/-! ### Well-formed cell references -/

/-- A cell reference split into its letter and digit parts (the shape every
`parse_range` output start/end has). -/
def CellRef (cs ls ds : List Char) : Prop :=
  cs = ls ++ ds ∧ ls ≠ [] ∧ (∀ c ∈ ls, c.isAlpha = true) ∧ ds ≠ [] ∧
    (∀ c ∈ ds, c.isDigit = true)

/-- `MAX_SEARCH_RESULTS` (constants.py:7). -/
def MAX_SEARCH_RESULTS : Nat := 25

/-- The match-accumulation loop of `search_values`
(polars_adapter.py:694-759): candidate cells are visited in order
(sheet, then column, then matching row), each match is appended, and the
function returns as soon as `len(matches) >= limit` after an append. -/
def searchLoop {α : Type} (limit : Nat) (p : α → Bool) (acc : List α) :
    List α → List α
  | [] => acc
  | c :: rest =>
    if p c then
      if limit ≤ (acc ++ [c]).length then acc ++ [c]
      else searchLoop limit p (acc ++ [c]) rest
    else searchLoop limit p acc rest

/-- `search_values` (polars_adapter.py:533-761) restricted to its match
accumulation: the candidate cells in visitation order and the match
predicate abstract the string/regex matching. -/
def search_values {α : Type} (limit : Nat) (cells : List α) (p : α → Bool) :
    List α :=
  searchLoop limit p [] cells

/-- The `truncated` flag computed by the `search` command
(search.py:79): compared against the constant `MAX_SEARCH_RESULTS`,
not against the limit used for the search. -/
def search_cmd_truncated {α : Type} (ms : List α) : Bool :=
  MAX_SEARCH_RESULTS ≤ ms.length

/-- `CHUNK_SIZE_ROWS` (constants.py:35). -/
def CHUNK_SIZE_ROWS : Nat := 100000

/-- `CHUNK_THRESHOLD_BYTES` (constants.py:33). -/
def CHUNK_THRESHOLD_BYTES : Nat := 100 * 1024 * 1024

/-- The `while` loop of `_read_chunked` (polars_adapter.py:261-270):
`src` is the sheet's row list (`total_rows = src.length`), a
`load_sheet(skip_rows=o, n_rows=k)` call yields `(src.drop o).take k`,
and the loop accumulates chunks while `rows_read < target_rows and
offset < total_rows`, advancing `rows_read` by the rows actually read
and `offset` by the rows requested. -/
def chunkLoop {ρ : Type} (src : List ρ) (target rows_read offset : Nat) :
    List (List ρ) :=
  if _h : rows_read < target ∧ offset < src.length then
    ((src.drop offset).take (min CHUNK_SIZE_ROWS (target - rows_read))) ::
      chunkLoop src target
        (rows_read +
          ((src.drop offset).take (min CHUNK_SIZE_ROWS (target - rows_read))).length)
        (offset + min CHUNK_SIZE_ROWS (target - rows_read))
  else []
termination_by target - rows_read
decreasing_by
  simp only [List.length_take, List.length_drop, CHUNK_SIZE_ROWS]
  omega

/-- `_read_chunked` (polars_adapter.py:245-278): `target_rows` from
`n_rows` or the remaining height, chunks concatenated (`pl.concat`), and
the no-chunk case returning an empty frame. -/
def read_chunked {ρ : Type} (src : List ρ) (skip_rows : Nat)
    (n_rows : Option Nat) : List ρ :=
  (chunkLoop src
    (match n_rows with
     | some n => n
     | none => src.length - skip_rows)
    0 skip_rows).flatten

/-- An unbounded direct load of the same request
(`pl.read_excel` with `skip_rows`/`n_rows` read options,
polars_adapter.py:94-96). -/
def directLoad {ρ : Type} (src : List ρ) (skip_rows : Nat)
    (n_rows : Option Nat) : List ρ :=
  match n_rows with
  | some n => (src.drop skip_rows).take n
  | none => src.drop skip_rows

/-- The strategy selection of `read_sheet_data` (polars_adapter.py:93-99):
direct when the file size is below the byte threshold or any explicit
`n_rows` is given, chunked otherwise. -/
def read_sheet_data {ρ : Type} (src : List ρ) (size skip_rows : Nat)
    (n_rows : Option Nat) : List ρ :=
  if size < CHUNK_THRESHOLD_BYTES ∨ n_rows ≠ none then
    directLoad src skip_rows n_rows
  else read_chunked src skip_rows n_rows

/-- Input to `excel_serial_to_isodate` (dates.py:63): a float serial,
idealised as an exact rational, or NaN (`serial != serial`). -/
inductive SerialInput where
  | nan
  | val (q : ℚ)

/-- The three result shapes of `excel_serial_to_isodate`: `None` for NaN,
the serial passed through unchanged for non-positive values, or an ISO
date / datetime string. -/
inductive SerialResult where
  | null
  | passthrough (q : ℚ)
  | isodate (s : String)
deriving DecidableEq

/-- The largest `int(serial)` for which
`datetime(1899, 12, 30) + timedelta(days=int_part)` fits below
`datetime.max` (year 9999): serial day 2958465 is 9999-12-31; beyond it
the addition raises `OverflowError`. -/
def maxSerialDay : Nat := 2958465

/-- 1899-12-30 (the Excel epoch used at dates.py:76, compatible with the
1900 leap-year bug) counted in days from 0000-03-01. -/
def excelEpochShift : Nat := 693899

/-- `round` half-to-even of `n / d` (`d > 0`), the rounding Python's
`timedelta` applies when converting fractional days to microseconds. -/
def roundHalfEvenDiv (n d : Nat) : Nat :=
  if d < 2 * (n % d) then n / d + 1
  else if 2 * (n % d) < d then n / d
  else if n / d % 2 = 0 then n / d else n / d + 1

/-- Proleptic-Gregorian date from a day count since 0000-03-01 (the
arithmetic performed by `datetime.__add__` via ordinal days): returns
`(year, month, day)`. -/
def civilFromDaysNat (g : Nat) : Nat × Nat × Nat :=
  let era := g / 146097
  let doe := g % 146097
  let yoe := (doe - doe / 1460 + doe / 36524 - doe / 146096) / 365
  let y := yoe + era * 400
  let doy := doe - (365 * yoe + yoe / 4 - yoe / 100)
  let mp := (5 * doy + 2) / 153
  let d := doy - (153 * mp + 2) / 5 + 1
  let m := if mp < 10 then mp + 3 else mp - 9
  ((if m ≤ 2 then y + 1 else y), m, d)

/-- Zero-padded two-digit field of `strftime`. -/
def pad2 (n : Nat) : List Char := if n < 10 then '0' :: natDigits n else natDigits n

/-- Zero-padded `%Y` field of `strftime`. -/
def pad4 (n : Nat) : List Char :=
  List.replicate (4 - (natDigits n).length) '0' ++ natDigits n

/-- `dt.strftime("%Y-%m-%d")` on a `(year, month, day)` triple. -/
def fmtCivil (p : Nat × Nat × Nat) : String :=
  String.mk (pad4 p.1 ++ '-' :: pad2 p.2.1 ++ '-' :: pad2 p.2.2)

/-- `dt.strftime("%H:%M:%S")` from the second-of-day (microseconds are
truncated by the format). -/
def fmtClock (sec : Nat) : String :=
  String.mk (pad2 (sec / 3600) ++ ':' :: pad2 (sec % 3600 / 60) ++ ':' :: pad2 (sec % 60))

/-- `excel_serial_to_isodate` (dates.py:63-87) over exact rationals:
NaN gives `None`; `serial <= 0` passes through; otherwise
`int_part = int(serial)` days are added to 1899-12-30 (raising
`OverflowError` past year 9999); a fractional part above `1e-9` is
converted by `timedelta` to microseconds (half-even rounding, with a
possible day carry that can itself overflow) and formatted as
`%Y-%m-%dT%H:%M:%S`, else the date alone as `%Y-%m-%d`.  For a positive
serial `q`, `int(q) = q.num.toNat / q.den` and the fractional remainder
is `q.num.toNat % q.den` over `q.den`. -/
def excel_serial_to_isodate (x : SerialInput) : Except String SerialResult :=
  match x with
  | .nan => .ok .null
  | .val q =>
    if q.num ≤ 0 then .ok (.passthrough q)
    else if maxSerialDay < q.num.toNat / q.den then
      .error "date value out of range"
    else if q.den < q.num.toNat % q.den * 1000000000 then
      if maxSerialDay < q.num.toNat / q.den +
          roundHalfEvenDiv (q.num.toNat % q.den * 86400000000) q.den /
            86400000000 then
        .error "date value out of range"
      else
        .ok (.isodate (fmtCivil (civilFromDaysNat (excelEpochShift +
            q.num.toNat / q.den +
            roundHalfEvenDiv (q.num.toNat % q.den * 86400000000) q.den /
              86400000000)) ++
          "T" ++ fmtClock (roundHalfEvenDiv (q.num.toNat % q.den * 86400000000)
            q.den % 86400000000 / 1000000)))
    else
      .ok (.isodate (fmtCivil (civilFromDaysNat (excelEpochShift +
        q.num.toNat / q.den))))

/-- A polars DataFrame as seen by `apply_compact` (dataframe.py:8-13):
its height (`len(df)`) and its columns, each a list of nullable cells. -/
structure DF (α : Type) where
  height : Nat
  cols : List (List (Option α))
deriving DecidableEq, Repr

/-- `df[col].null_count()`. -/
def nullCount {α : Type} (c : List (Option α)) : Nat :=
  (c.filter fun x => x.isNone).length

/-- `apply_compact` (dataframe.py:8-13): keep the columns with
`null_count() < len(df)` when compacting a non-empty frame, falling back
to the unchanged frame when no column would survive. -/
def apply_compact {α : Type} (df : DF α) (compact : Bool) : DF α :=
  if compact = false ∨ df.height = 0 then df
  else if (df.cols.filter fun c => nullCount c < df.height).isEmpty then df
  else ⟨df.height, df.cols.filter fun c => nullCount c < df.height⟩

end AgentXlsx

open AgentXlsx

/-! Helper lemmas for the codec round trip. -/

theorem toNat_ofNat_valid {n : Nat} (h : n < 55296) : (Char.ofNat n).toNat = n := by
  have hv : n.isValidChar := Or.inl h
  rw [Char.ofNat, dif_pos hv]
  rfl

theorem toUpper_upper_char {n : Nat} (h65 : 65 ≤ n) (h90 : n ≤ 90) :
    (Char.ofNat n).toUpper = Char.ofNat n := by
  have ht : (Char.ofNat n).toNat = n := toNat_ofNat_valid (by omega)
  rw [Char.toUpper]
  simp only [ht]
  rw [if_neg]
  omega

theorem colVal_append (l : List Char) (c : Char) :
    colVal (l ++ [c]) = colVal l * 26 + ((c.toUpper.toNat : Int) - 64) := by
  simp [colVal, List.foldl_append]

theorem colVal_indexToLetterLoop (n : Nat) : colVal (indexToLetterLoop n) = n := by
  induction n using Nat.strong_induction_on with
  | _ n ih =>
    rw [indexToLetterLoop]
    by_cases h : 0 < n
    · rw [dif_pos h, colVal_append]
      have hq : (n - 1) / 26 < n := by
        have h1 : (n - 1) / 26 ≤ n - 1 := Nat.div_le_self _ _
        omega
      rw [ih _ hq]
      have hr : (n - 1) % 26 < 26 := Nat.mod_lt _ (by omega)
      have hup : (Char.ofNat (65 + (n - 1) % 26)).toUpper = Char.ofNat (65 + (n - 1) % 26) :=
        toUpper_upper_char (by omega) (by omega)
      rw [hup]
      have ht : (Char.ofNat (65 + (n - 1) % 26)).toNat = 65 + (n - 1) % 26 :=
        toNat_ofNat_valid (by omega)
      rw [ht]
      have hdm : 26 * ((n - 1) / 26) + (n - 1) % 26 = n - 1 := Nat.div_add_mod _ _
      push_cast
      omega
    · rw [dif_neg h]
      simp [colVal]
      omega

/-- Lean's `Char.toUpper` is idempotent, mirroring Python `str.upper`. -/
theorem toUpper_idem (c : Char) : c.toUpper.toUpper = c.toUpper := by
  rw [Char.toUpper, Char.toUpper]
  by_cases h : c.toNat ≥ 97 ∧ c.toNat ≤ 122
  · rw [if_pos h]
    have ht : (Char.ofNat (c.toNat - 32)).toNat = c.toNat - 32 := by
      have hlt : c.toNat - 32 < 55296 := by omega
      exact toNat_ofNat_valid hlt
    rw [if_neg]
    omega
  · rw [if_neg h, if_neg h]

/-! ### Codec round-trip lemmas -/

theorem colVal_map_toUpper (cs : List Char) : colVal (upperChars cs) = colVal cs := by
  unfold colVal upperChars
  induction cs using List.reverseRecOn with
  | nil => rfl
  | append_singleton l c ih =>
    rw [List.map_append, List.foldl_append, List.foldl_append, ih]
    simp [toUpper_idem]

theorem col_letter_to_index_eq_colVal (cs : List Char) :
    col_letter_to_index cs = colVal cs - 1 := rfl

/-! ### Characterisation of the cell-token matcher -/

theorem digit_not_alpha {c : Char} (h : c.isDigit = true) : c.isAlpha = false := by
  simp only [Char.isDigit, Bool.and_eq_true, decide_eq_true_eq] at h
  obtain ⟨_, h2⟩ := h
  have hn2 : c.val.toNat ≤ 57 := @UInt32.toNat_le_of_le c.val 57 (by decide) h2
  simp only [Char.isAlpha, Char.isUpper, Char.isLower, Bool.or_eq_false_iff,
    Bool.and_eq_false_iff, decide_eq_false_iff_not, not_le]
  refine ⟨Or.inl fun hc => ?_, Or.inl fun hc => ?_⟩
  · have := @UInt32.le_toNat_of_le c.val 65 (by decide) hc
    omega
  · have := @UInt32.le_toNat_of_le c.val 97 (by decide) hc
    omega

theorem takeWhile_append_all {p : Char → Bool} {ls ds : List Char}
    (hls : ∀ c ∈ ls, p c = true) (hds : ∀ h t, ds = h :: t → p h = false) :
    (ls ++ ds).takeWhile p = ls ∧ (ls ++ ds).dropWhile p = ds := by
  induction ls with
  | nil =>
    simp only [List.nil_append]
    cases ds with
    | nil => simp
    | cons h t =>
      rw [List.takeWhile_cons_of_neg, List.dropWhile_cons_of_neg] <;>
        simp [hds h t rfl]
  | cons c cs ih =>
    have hc : p c = true := hls c (by simp)
    have ih' := ih (fun x hx => hls x (by simp [hx]))
    simp only [List.cons_append, List.takeWhile_cons_of_pos hc,
      List.dropWhile_cons_of_pos hc, ih'.1, ih'.2, and_self]

theorem isCellToken_iff (cs : List Char) : isCellToken cs = true ↔ IsCell cs := by
  constructor
  · intro h
    simp only [isCellToken, Bool.and_eq_true, decide_eq_true_eq, Bool.not_eq_true',
      List.isEmpty_eq_false, List.all_eq_true] at h
    obtain ⟨⟨⟨h1, h3⟩, hne⟩, hdig⟩ := h
    refine ⟨cs.takeWhile Char.isAlpha, cs.dropWhile Char.isAlpha,
      (List.takeWhile_append_dropWhile Char.isAlpha cs).symm, h1, h3, ?_, hne, hdig⟩
    intro c hc
    exact List.mem_takeWhile_imp hc
  · rintro ⟨ls, ds, rfl, h1, h3, hal, hne, hdig⟩
    have hds : ∀ h t, ds = h :: t → Char.isAlpha h = false := by
      intro h t hht
      exact digit_not_alpha (hdig h (by simp [hht]))
    obtain ⟨ht, hd⟩ := takeWhile_append_all hal hds
    simp only [isCellToken, ht, hd, Bool.and_eq_true, decide_eq_true_eq,
      Bool.not_eq_true', List.isEmpty_eq_false, List.all_eq_true]
    exact ⟨⟨⟨h1, h3⟩, hne⟩, hdig⟩

/-! ### Characterisation of the last-`!` split -/

theorem splitLastBang_eq_none_iff (cs : List Char) :
    splitLastBang cs = none ↔ '!' ∉ cs := by
  induction cs with
  | nil => simp [splitLastBang]
  | cons c rest ih =>
    rw [splitLastBang]
    cases hr : splitLastBang rest with
    | some ab =>
      obtain ⟨a, b⟩ := ab
      have hmem : '!' ∈ rest := by
        by_contra hno
        rw [ih.mpr hno] at hr
        exact Option.noConfusion hr
      simp [hmem]
    | none =>
      have hrest : '!' ∉ rest := ih.mp hr
      by_cases hc : c = '!'
      · subst hc
        simp
      · simp [hc, hrest, Ne.symm hc]

theorem splitLastBang_eq_some {cs a b : List Char}
    (h : splitLastBang cs = some (a, b)) : cs = a ++ '!' :: b ∧ '!' ∉ b := by
  induction cs generalizing a b with
  | nil => simp [splitLastBang] at h
  | cons c rest ih =>
    rw [splitLastBang] at h
    cases hr : splitLastBang rest with
    | some ab =>
      obtain ⟨a', b'⟩ := ab
      rw [hr] at h
      simp only [Option.some_inj, Prod.mk.injEq] at h
      obtain ⟨ha, hb⟩ := h
      obtain ⟨h1, h2⟩ := ih hr
      subst hb
      rw [← ha, h1]
      exact ⟨by simp, h2⟩
    | none =>
      rw [hr] at h
      by_cases hc : c = '!'
      · subst hc
        rw [if_pos rfl] at h
        simp only [Option.some_inj, Prod.mk.injEq] at h
        obtain ⟨ha, hb⟩ := h
        subst ha
        subst hb
        exact ⟨by simp, (splitLastBang_eq_none_iff rest).mp hr⟩
      · simp [hc] at h

theorem splitLastBang_of_decomp {a b : List Char} (hb : '!' ∉ b) :
    splitLastBang (a ++ '!' :: b) = some (a, b) := by
  induction a with
  | nil =>
    rw [List.nil_append, splitLastBang, (splitLastBang_eq_none_iff b).mpr hb]
    simp
  | cons c a ih =>
    rw [List.cons_append, splitLastBang, ih]

/-! ### Characterisation of the cell-range matcher -/

theorem dropWhile_head_false {p : Char → Bool} {l : List Char} {x : Char} {r : List Char}
    (h : l.dropWhile p = x :: r) : p x = false := by
  induction l with
  | nil => simp [List.dropWhile] at h
  | cons c t ih =>
    rw [List.dropWhile_cons] at h
    by_cases hc : p c = true
    · rw [if_pos hc] at h
      exact ih h
    · rw [if_neg hc] at h
      cases h
      exact Bool.not_eq_true _ ▸ hc

theorem IsCell_chars {cs : List Char} (h : IsCell cs) :
    ∀ c ∈ cs, c.isAlpha = true ∨ c.isDigit = true := by
  obtain ⟨ls, ds, rfl, _, _, hal, _, hdig⟩ := h
  intro c hc
  rcases List.mem_append.mp hc with hl | hd
  · exact Or.inl (hal c hl)
  · exact Or.inr (hdig c hd)

theorem IsCell_colon_not_mem {cs : List Char} (h : IsCell cs) : ':' ∉ cs := by
  intro hmem
  rcases IsCell_chars h ':' hmem with hh | hh <;> simp at hh

theorem IsCell_bang_not_mem {cs : List Char} (h : IsCell cs) : '!' ∉ cs := by
  intro hmem
  rcases IsCell_chars h '!' hmem with hh | hh <;> simp at hh

theorem IsCellRange_bang_not_mem {cs : List Char} (h : IsCellRange cs) : '!' ∉ cs := by
  rcases h with hc | ⟨a, b, rfl, ha, hb⟩
  · exact IsCell_bang_not_mem hc
  · intro hmem
    rcases List.mem_append.mp hmem with h1 | h2
    · exact IsCell_bang_not_mem ha h1
    · rcases List.mem_cons.mp h2 with h3 | h4
      · simp at h3
      · exact IsCell_bang_not_mem hb h4

theorem notColon_eq_false_iff {c : Char} : notColon c = false ↔ c = ':' := by
  simp [notColon]

theorem matchCellRange_drop_nil {cs : List Char} (h : cs.dropWhile notColon = []) :
    matchCellRange cs =
      if isCellToken (cs.takeWhile notColon) then some (cs.takeWhile notColon, none)
      else none := by
  unfold matchCellRange
  rw [h]

theorem matchCellRange_drop_cons {cs : List Char} {x : Char} {b : List Char}
    (h : cs.dropWhile notColon = x :: b) :
    matchCellRange cs =
      if isCellToken (cs.takeWhile notColon) && isCellToken b then
        some (cs.takeWhile notColon, some b)
      else none := by
  unfold matchCellRange
  rw [h]

theorem matchCellRange_isSome_iff (cs : List Char) :
    (matchCellRange cs).isSome = true ↔ IsCellRange cs := by
  constructor
  · intro h
    have hsplit := List.takeWhile_append_dropWhile notColon cs
    cases hd : cs.dropWhile notColon with
    | nil =>
      rw [matchCellRange_drop_nil hd] at h
      rw [hd] at hsplit
      by_cases hct : isCellToken (cs.takeWhile notColon) = true
      · left
        rw [List.append_nil] at hsplit
        rw [← hsplit]
        exact (isCellToken_iff _).mp hct
      · simp [hct] at h
    | cons x b =>
      rw [matchCellRange_drop_cons hd] at h
      rw [hd] at hsplit
      have hx : x = ':' := notColon_eq_false_iff.mp (dropWhile_head_false hd)
      subst hx
      by_cases hct : (isCellToken (cs.takeWhile notColon) && isCellToken b) = true
      · right
        rw [Bool.and_eq_true] at hct
        exact ⟨_, b, hsplit.symm, (isCellToken_iff _).mp hct.1, (isCellToken_iff _).mp hct.2⟩
      · simp [hct] at h
  · intro h
    rcases h with hc | ⟨a, b, rfl, ha, hb⟩
    · have hnc := IsCell_colon_not_mem hc
      have hls : ∀ c ∈ cs, notColon c = true := by
        intro c hcm
        simp only [notColon, decide_eq_true_eq, ne_eq]
        intro hceq
        exact hnc (hceq ▸ hcm)
      have hta := @takeWhile_append_all notColon cs [] hls (by intro h t ht; cases ht)
      rw [List.append_nil] at hta
      rw [matchCellRange_drop_nil hta.2, hta.1, if_pos ((isCellToken_iff cs).mpr hc)]
      rfl
    · have hna := IsCell_colon_not_mem ha
      have hls : ∀ c ∈ a, notColon c = true := by
        intro c hcm
        simp only [notColon, decide_eq_true_eq, ne_eq]
        intro hceq
        exact hna (hceq ▸ hcm)
      have hds : ∀ h t, (':' :: b : List Char) = h :: t → notColon h = false := by
        intro h t ht
        cases ht
        simp [notColon]
      have hta := takeWhile_append_all hls hds
      rw [matchCellRange_drop_cons hta.2, hta.1, if_pos]
      · rfl
      · rw [Bool.and_eq_true]
        exact ⟨(isCellToken_iff a).mpr ha, (isCellToken_iff b).mpr hb⟩

/-! ### Characterisation of the whole range matcher -/

theorem matchRange_of_no_bang {cs : List Char} (h : splitLastBang cs = none) :
    matchRange cs =
      (matchCellRange cs).map fun se => ⟨none, upperChars se.1, se.2.map upperChars⟩ := by
  unfold matchRange
  rw [h]

theorem matchRange_of_bang {cs sh rest : List Char}
    (h : splitLastBang cs = some (sh, rest)) :
    matchRange cs =
      if sh.isEmpty || sh.contains '\n' then none
      else (matchCellRange rest).map fun se =>
        ⟨some sh, upperChars se.1, se.2.map upperChars⟩ := by
  unfold matchRange
  rw [h]

theorem contains_iff_mem {l : List Char} {a : Char} : l.contains a = true ↔ a ∈ l :=
  List.elem_iff

theorem option_isSome_map {α β : Type} (f : α → β) (o : Option α) :
    (o.map f).isSome = o.isSome := by
  cases o <;> rfl

theorem matchRange_isSome_iff (cs : List Char) :
    (matchRange cs).isSome = true ↔ Grammatical cs := by
  cases hsb : splitLastBang cs with
  | none =>
    rw [matchRange_of_no_bang hsb]
    have hnb : '!' ∉ cs := (splitLastBang_eq_none_iff cs).mp hsb
    rw [option_isSome_map, matchCellRange_isSome_iff]
    constructor
    · intro h
      exact Or.inl ⟨hnb, h⟩
    · rintro (⟨_, h⟩ | ⟨sh, rest, heq, _, _, _, _⟩)
      · exact h
      · exact absurd (heq ▸ (by simp : '!' ∈ sh ++ '!' :: rest)) hnb
  | some p =>
    obtain ⟨sh, rest⟩ := p
    rw [matchRange_of_bang hsb]
    obtain ⟨heq, hnr⟩ := splitLastBang_eq_some hsb
    by_cases hbad : (sh.isEmpty || sh.contains '\n') = true
    · rw [if_pos hbad]
      simp only [Option.isSome_none, Bool.false_eq_true, false_iff]
      rintro (⟨hnb, _⟩ | ⟨sh', rest', heq', hne', hnl', hnr', _⟩)
      · exact hnb (heq ▸ (by simp : '!' ∈ sh ++ '!' :: rest))
      · have : splitLastBang cs = some (sh', rest') := heq' ▸ splitLastBang_of_decomp hnr'
        rw [hsb] at this
        simp only [Option.some_inj, Prod.mk.injEq] at this
        obtain ⟨h1, _⟩ := this
        subst h1
        rcases Bool.or_eq_true_iff.mp hbad with hb1 | hb2
        · exact hne' (List.isEmpty_iff.mp hb1)
        · exact hnl' (contains_iff_mem.mp hb2)
    · rw [if_neg hbad]
      rw [option_isSome_map, matchCellRange_isSome_iff]
      rw [Bool.or_eq_true_iff] at hbad
      push_neg at hbad
      obtain ⟨hb1, hb2⟩ := hbad
      constructor
      · intro h
        refine Or.inr ⟨sh, rest, heq, ?_, ?_, hnr, h⟩
        · intro hemp
          rw [hemp] at hb1
          simp at hb1
        · exact fun hmem => hb2 (contains_iff_mem.mpr hmem)
      · rintro (⟨hnb, _⟩ | ⟨sh', rest', heq', _, _, hnr', hcr'⟩)
        · exact absurd (heq ▸ (by simp : '!' ∈ sh ++ '!' :: rest)) hnb
        · have : splitLastBang cs = some (sh', rest') := heq' ▸ splitLastBang_of_decomp hnr'
          rw [hsb] at this
          simp only [Option.some_inj, Prod.mk.injEq] at this
          obtain ⟨_, h2⟩ := this
          subst h2
          exact hcr'

/-! ### Whitespace and normalisation lemmas -/

theorem norm_cons_not_backslash {c : Char} (hc : c ≠ '\\') (l : List Char) :
    normaliseShellRef (c :: l) = c :: normaliseShellRef l := by
  cases l with
  | nil => rfl
  | cons c2 rest =>
    rw [normaliseShellRef, if_neg]
    rintro ⟨h1, _⟩
    exact hc h1

theorem norm_two_cons (c1 c2 : Char) (rest : List Char) :
    normaliseShellRef (c1 :: c2 :: rest) =
      if c1 = '\\' ∧ c2 = '!' then '!' :: normaliseShellRef rest
      else c1 :: normaliseShellRef (c2 :: rest) := by
  rfl

theorem norm_append_singleton {c : Char} (hc : c ≠ '!') (l : List Char) :
    normaliseShellRef (l ++ [c]) = normaliseShellRef l ++ [c] := by
  induction l using normaliseShellRef.induct with
  | case1 => rfl
  | case2 c1 =>
    rw [List.singleton_append, norm_two_cons, if_neg]
    · rfl
    · rintro ⟨_, h2⟩
      exact hc h2
  | case3 c1 c2 rest hcc ih =>
    rw [List.cons_append, List.cons_append, norm_two_cons, norm_two_cons,
      if_pos hcc, if_pos hcc, ih]
    rfl
  | case4 c1 c2 rest hcc ih =>
    rw [List.cons_append, List.cons_append, norm_two_cons, norm_two_cons,
      if_neg hcc, if_neg hcc, ← List.cons_append, ih]
    rfl

theorem strip_cons_space (l : List Char) : stripChars (' ' :: l) = stripChars l := by
  unfold stripChars
  rw [List.dropWhile_cons_of_pos (by decide)]

theorem strip_append_space (l : List Char) : stripChars (l ++ [' ']) = stripChars l := by
  unfold stripChars
  rw [List.dropWhile_append]
  by_cases he : (l.dropWhile Char.isWhitespace).isEmpty = true
  · rw [if_pos he]
    rw [List.isEmpty_iff] at he
    rw [he]
    rfl
  · rw [if_neg he]
    rw [List.reverse_append, List.reverse_singleton, List.singleton_append,
      List.dropWhile_cons_of_pos (by decide)]

theorem upperChars_idem (cs : List Char) : upperChars (upperChars cs) = upperChars cs := by
  unfold upperChars
  rw [List.map_map]
  exact List.map_congr_left fun c _ => toUpper_idem c

/-- Every successful `matchRange` output has uppercased cell fields. -/
theorem matchRange_upper {cs : List Char} {r : ParsedRange} (h : matchRange cs = some r) :
    upperChars r.start = r.start ∧ ∀ e, r.stop = some e → upperChars e = e := by
  cases hsb : splitLastBang cs with
  | none =>
    rw [matchRange_of_no_bang hsb] at h
    cases hm : matchCellRange cs with
    | none => rw [hm] at h; cases h
    | some se =>
      rw [hm] at h
      simp only [Option.map_some', Option.some_inj] at h
      subst h
      refine ⟨upperChars_idem _, ?_⟩
      intro e he
      cases hse : se.2 with
      | none => rw [hse] at he; cases he
      | some e0 =>
        rw [hse] at he
        simp only [Option.map_some', Option.some_inj] at he
        subst he
        exact upperChars_idem e0
  | some p =>
    obtain ⟨sh, rest⟩ := p
    rw [matchRange_of_bang hsb] at h
    by_cases hbad : (sh.isEmpty || sh.contains '\n') = true
    · rw [if_pos hbad] at h
      cases h
    · rw [if_neg hbad] at h
      cases hm : matchCellRange rest with
      | none => rw [hm] at h; cases h
      | some se =>
        rw [hm] at h
        simp only [Option.map_some', Option.some_inj] at h
        subst h
        refine ⟨upperChars_idem _, ?_⟩
        intro e he
        cases hse : se.2 with
        | none => rw [hse] at he; cases he
        | some e0 =>
          rw [hse] at he
          simp only [Option.map_some', Option.some_inj] at he
          subst he
          exact upperChars_idem e0

/-! ### Lemmas about `stripChars`, `normaliseShellRef` and `splitOnChar`
used by the multi-range carry-forward proof -/

theorem mem_dropWhile_of_mem {p : Char → Bool} {l : List Char} {c : Char}
    (hm : c ∈ l) (hp : p c = false) : c ∈ l.dropWhile p := by
  induction l with
  | nil => cases hm
  | cons x t ih =>
    rw [List.dropWhile_cons]
    by_cases hx : p x = true
    · rw [if_pos hx]
      rcases List.mem_cons.mp hm with rfl | hmt
      · rw [hp] at hx
        cases hx
      · exact ih hmt
    · rw [if_neg hx]
      exact hm

theorem mem_of_mem_dropWhile {p : Char → Bool} {l : List Char} {c : Char}
    (hm : c ∈ l.dropWhile p) : c ∈ l :=
  (List.dropWhile_sublist p).mem hm

theorem mem_of_mem_strip {l : List Char} {c : Char} (hm : c ∈ stripChars l) : c ∈ l := by
  unfold stripChars at hm
  rw [List.mem_reverse] at hm
  have h1 := mem_of_mem_dropWhile hm
  rw [List.mem_reverse] at h1
  exact mem_of_mem_dropWhile h1

theorem mem_strip_of_mem {l : List Char} {c : Char} (hm : c ∈ l)
    (hws : c.isWhitespace = false) : c ∈ stripChars l := by
  unfold stripChars
  rw [List.mem_reverse]
  apply mem_dropWhile_of_mem _ hws
  rw [List.mem_reverse]
  exact mem_dropWhile_of_mem hm hws

theorem head_dropWhile_not_ws {l : List Char} {x : Char}
    (h : (l.dropWhile Char.isWhitespace).head? = some x) : x.isWhitespace = false := by
  cases hd : l.dropWhile Char.isWhitespace with
  | nil => rw [hd] at h; cases h
  | cons y t =>
    rw [hd] at h
    simp only [List.head?_cons, Option.some_inj] at h
    subst h
    exact dropWhile_head_false hd

/-- The first character of a stripped string is not whitespace. -/
theorem strip_head_not_ws {l : List Char} {x : Char}
    (h : (stripChars l).head? = some x) : x.isWhitespace = false := by
  unfold stripChars at h
  rw [List.head?_reverse] at h
  cases hd2 : (l.dropWhile Char.isWhitespace).reverse.dropWhile Char.isWhitespace with
  | nil => rw [hd2] at h; cases h
  | cons y t =>
    rw [hd2] at h
    have hsplit :=
      List.takeWhile_append_dropWhile Char.isWhitespace (l.dropWhile Char.isWhitespace).reverse
    rw [hd2] at hsplit
    have hgl : (l.dropWhile Char.isWhitespace).reverse.getLast? = some x := by
      rw [← hsplit, List.getLast?_append, h]
      rfl
    rw [List.getLast?_reverse] at hgl
    exact head_dropWhile_not_ws hgl

/-- The last character of a stripped string is not whitespace. -/
theorem strip_getLast_not_ws {l : List Char} {x : Char}
    (h : (stripChars l).getLast? = some x) : x.isWhitespace = false := by
  unfold stripChars at h
  rw [List.getLast?_reverse] at h
  exact head_dropWhile_not_ws h

/-- Stripping a string whose ends are not whitespace is the identity. -/
theorem strip_eq_self {l : List Char}
    (h1 : ∀ x, l.head? = some x → x.isWhitespace = false)
    (h2 : ∀ x, l.getLast? = some x → x.isWhitespace = false) :
    stripChars l = l := by
  cases l with
  | nil => rfl
  | cons c t =>
    unfold stripChars
    rw [List.dropWhile_cons_of_neg (by simp [h1 c rfl])]
    cases hrev : (c :: t).reverse with
    | nil => simp at hrev
    | cons y r =>
      have hy : (c :: t).getLast? = some y := by
        rw [List.getLast?_eq_head?_reverse, hrev]
        rfl
      rw [List.dropWhile_cons_of_neg (by simp [h2 y hy]), ← hrev, List.reverse_reverse]

theorem strip_idem (l : List Char) : stripChars (stripChars l) = stripChars l :=
  strip_eq_self (fun _ h => strip_head_not_ws h) (fun _ h => strip_getLast_not_ws h)

/-- `normaliseShellRef` is the identity on backslash-free strings. -/
theorem norm_eq_self_of_no_backslash {l : List Char} (h : '\\' ∉ l) :
    normaliseShellRef l = l := by
  induction l using normaliseShellRef.induct with
  | case1 => rfl
  | case2 => rfl
  | case3 c1 c2 rest hcc ih =>
    exact absurd (hcc.1 ▸ List.mem_cons_self c1 (c2 :: rest)) h
  | case4 c1 c2 rest hcc ih =>
    rw [norm_two_cons, if_neg hcc, ih]
    intro hm
    exact h (List.mem_cons.mpr (Or.inr hm))

theorem headI_mem_of_ne_nil {S : List (List Char)} (h : S ≠ []) : S.headI ∈ S := by
  cases S with
  | nil => exact absurd rfl h
  | cons a t => exact List.mem_cons_self _ _

/-- The split of a string is never the empty list of pieces. -/
theorem splitOnChar_ne_nil (sep : Char) (l : List Char) : splitOnChar sep l ≠ [] := by
  cases l with
  | nil => simp [splitOnChar]
  | cons c rest =>
    rw [splitOnChar]
    by_cases hc : c = sep
    · rw [if_pos hc]
      simp
    · rw [if_neg hc]
      simp

/-- Members of a `splitOnChar` piece are members of the original string. -/
theorem mem_of_mem_splitOnChar {sep : Char} {l t : List Char} {c : Char}
    (ht : t ∈ splitOnChar sep l) (hc : c ∈ t) : c ∈ l := by
  induction l generalizing t with
  | nil =>
    simp only [splitOnChar, List.mem_singleton] at ht
    subst ht
    cases hc
  | cons x rest ih =>
    rw [splitOnChar] at ht
    by_cases hx : x = sep
    · rw [if_pos hx] at ht
      rcases List.mem_cons.mp ht with rfl | h2
      · cases hc
      · exact List.mem_cons.mpr (Or.inr (ih h2 hc))
    · rw [if_neg hx] at ht
      rcases List.mem_cons.mp ht with rfl | h2
      · rcases List.mem_cons.mp hc with rfl | h3
        · exact List.mem_cons_self _ _
        · have hhead : (splitOnChar sep rest).headI ∈ splitOnChar sep rest :=
            headI_mem_of_ne_nil (splitOnChar_ne_nil sep rest)
          exact List.mem_cons.mpr (Or.inr (ih hhead h3))
      · have hmem : t ∈ splitOnChar sep rest :=
          List.tail_sublist (splitOnChar sep rest) |>.mem h2
        exact List.mem_cons.mpr (Or.inr (ih hmem hc))

/-! ### Sheet-context carry-forward (`parse_multi_range`) -/

theorem contains_eq_false_iff {l : List Char} {a : Char} :
    l.contains a = false ↔ a ∉ l := by
  constructor
  · intro h hm
    rw [contains_iff_mem.mpr hm] at h
    cases h
  · intro hm
    cases h : l.contains a with
    | false => rfl
    | true => exact absurd (contains_iff_mem.mp h) hm

theorem tokenParse_bang {part : List Char} {ctx : Option (List Char)}
    (h : part.contains '!' = true) : tokenParse part ctx = parse_range part := by
  unfold tokenParse
  rw [if_pos h]

theorem tokenParse_nobang_none {part : List Char}
    (h : part.contains '!' = false) : tokenParse part none = parse_range part := by
  unfold tokenParse
  rw [if_neg (by rw [h]; exact Bool.false_ne_true)]

theorem tokenParse_nobang_some {part c : List Char}
    (h : part.contains '!' = false) :
    tokenParse part (some c) =
      if c.isEmpty then parse_range part else parse_range (c ++ '!' :: part) := by
  unfold tokenParse
  rw [if_neg (by rw [h]; exact Bool.false_ne_true)]

/-- A bare parse (token without `'!'`, no context) yields `sheet = None`. -/
theorem parse_bare_sheet_none {part : List Char} (hb : '\\' ∉ part)
    (hnb : '!' ∉ part) (hstrip : stripChars part = part) {pr : ParsedRange}
    (h : parse_range part = some pr) : pr.sheet = none := by
  unfold parse_range at h
  rw [norm_eq_self_of_no_backslash hb, hstrip,
    matchRange_of_no_bang ((splitLastBang_eq_none_iff part).mpr hnb),
    Option.map_eq_some'] at h
  obtain ⟨se, _, hpr⟩ := h
  rw [← hpr]

/-- Parsing `{ctx}!{token}` for a backslash-free context and `'!'`-free
token yields exactly the context as the sheet. -/
theorem parse_joined_sheet {c part : List Char}
    (hcb : '\\' ∉ c) (hpb : '\\' ∉ part) (hnb : '!' ∉ part) (hcne : c ≠ [])
    (hchead : ∀ x, c.head? = some x → x.isWhitespace = false)
    (hplast : ∀ x, part.getLast? = some x → x.isWhitespace = false)
    {pr : ParsedRange} (h : parse_range (c ++ '!' :: part) = some pr) :
    pr.sheet = some c := by
  have hwb : '\\' ∉ (c ++ '!' :: part) := by
    intro hm
    rcases List.mem_append.mp hm with h1 | h2
    · exact hcb h1
    · rcases List.mem_cons.mp h2 with h3 | h4
      · exact absurd h3 (by decide)
      · exact hpb h4
  obtain ⟨y, t, rfl⟩ := List.exists_cons_of_ne_nil hcne
  have hhead : ∀ x, ((y :: t) ++ '!' :: part).head? = some x → x.isWhitespace = false := by
    intro x hx
    rw [List.cons_append, List.head?_cons, Option.some_inj] at hx
    exact hchead x (hx ▸ rfl)
  have hlast : ∀ x, ((y :: t) ++ '!' :: part).getLast? = some x → x.isWhitespace = false := by
    intro x hx
    rw [List.getLast?_append] at hx
    cases hpart : part with
    | nil =>
      subst hpart
      simp only [List.getLast?_singleton, Option.or_some, Option.some_inj] at hx
      subst hx
      decide
    | cons q qs =>
      subst hpart
      rw [List.getLast?_cons_cons] at hx
      have hg : (q :: qs).getLast? = some x := by
        cases hgl : (q :: qs).getLast? with
        | none =>
          exact absurd hgl (by simp)
        | some z =>
          rw [hgl] at hx
          simp only [Option.or_some, Option.some_inj] at hx
          rw [hx]
      exact hplast x hg
  unfold parse_range at h
  rw [norm_eq_self_of_no_backslash hwb, strip_eq_self hhead hlast,
    matchRange_of_bang (splitLastBang_of_decomp hnb)] at h
  by_cases hbad : ((y :: t).isEmpty || (y :: t).contains '\n') = true
  · rw [if_pos hbad] at h
    cases h
  · rw [if_neg hbad, Option.map_eq_some'] at h
    obtain ⟨se, _, hpr⟩ := h
    rw [← hpr]

/-- Parsing a token that contains `'!'` (backslash-free) yields a non-empty
sheet equal to the part before the token's last `'!'`. -/
theorem parse_explicit_sheet {part : List Char} (hpb : '\\' ∉ part)
    (hbang : '!' ∈ part) (hstrip : stripChars part = part) {pr : ParsedRange}
    (h : parse_range part = some pr) :
    ∃ sh rest, part = sh ++ '!' :: rest ∧ pr.sheet = some sh ∧ sh ≠ [] := by
  unfold parse_range at h
  rw [norm_eq_self_of_no_backslash hpb, hstrip] at h
  cases hsb : splitLastBang part with
  | none => exact absurd hbang ((splitLastBang_eq_none_iff part).mp hsb)
  | some q =>
    obtain ⟨sh, rest⟩ := q
    obtain ⟨hdec, _⟩ := splitLastBang_eq_some hsb
    rw [matchRange_of_bang hsb] at h
    by_cases hbad : (sh.isEmpty || sh.contains '\n') = true
    · rw [if_pos hbad] at h
      cases h
    · rw [if_neg hbad, Option.map_eq_some'] at h
      obtain ⟨se, _, hpr⟩ := h
      refine ⟨sh, rest, hdec, by rw [← hpr], ?_⟩
      intro hemp
      rw [hemp] at hbad
      simp at hbad

theorem ctxUpdate_of_some {ctx : Option (List Char)} {pr : ParsedRange} {sh : List Char}
    (h : pr.sheet = some sh) :
    ctxUpdate ctx pr = if sh.isEmpty then ctx else some sh := by
  unfold ctxUpdate
  rw [h]

theorem ctxUpdate_of_none {ctx : Option (List Char)} {pr : ParsedRange}
    (h : pr.sheet = none) : ctxUpdate ctx pr = ctx := by
  unfold ctxUpdate
  rw [h]

theorem multiLoop_cons_none {p : List Char} {rest : List (List Char)}
    {ctx : Option (List Char)}
    (h : tokenParse (stripChars p) ctx = none) :
    multiLoop (p :: rest) ctx = none := by
  have he : multiLoop (p :: rest) ctx =
      match tokenParse (stripChars p) ctx with
      | none => none
      | some pr => (multiLoop rest (ctxUpdate ctx pr)).map (pr :: ·) := rfl
  rw [he, h]

theorem multiLoop_cons_some {p : List Char} {rest : List (List Char)}
    {ctx : Option (List Char)} {pr : ParsedRange}
    (h : tokenParse (stripChars p) ctx = some pr) :
    multiLoop (p :: rest) ctx = (multiLoop rest (ctxUpdate ctx pr)).map (pr :: ·) := by
  have he : multiLoop (p :: rest) ctx =
      match tokenParse (stripChars p) ctx with
      | none => none
      | some pr => (multiLoop rest (ctxUpdate ctx pr)).map (pr :: ·) := rfl
  rw [he, h]

/-- Main loop invariant: under a backslash-free input, a token without `'!'`
gets exactly the context in force, which is the sheet of the previous
entry (or the initial context for the first token). -/
theorem multiLoop_carry (toks : List (List Char)) :
    ∀ (ctx : Option (List Char)) (out : List ParsedRange),
    (∀ t ∈ toks, '\\' ∉ t) → CtxOK ctx → multiLoop toks ctx = some out →
    out.length = toks.length ∧
    (∀ t0, toks.head? = some t0 → (stripChars t0).contains '!' = false →
      ∃ pr, out.head? = some pr ∧ pr.sheet = ctx) ∧
    (∀ i t, toks.get? (i + 1) = some t → (stripChars t).contains '!' = false →
      ∃ pr prv, out.get? (i + 1) = some pr ∧ out.get? i = some prv ∧
        pr.sheet = prv.sheet) := by
  induction toks with
  | nil =>
    intro ctx out _ _ hloop
    unfold multiLoop at hloop
    simp only [Option.some_inj] at hloop
    subst hloop
    refine ⟨rfl, ?_, ?_⟩
    · intro t0 h
      cases h
    · intro i t h
      cases h
  | cons p rest ih =>
    intro ctx out hbs hctx hloop
    cases htp : tokenParse (stripChars p) ctx with
    | none =>
      rw [multiLoop_cons_none htp] at hloop
      exact Option.noConfusion hloop
    | some pr0 =>
      rw [multiLoop_cons_some htp, Option.map_eq_some'] at hloop
      obtain ⟨out', hrest, hout⟩ := hloop
      subst hout
      have hpb : '\\' ∉ p := hbs p (List.mem_cons_self _ _)
      have hpartb : '\\' ∉ stripChars p := fun hm => hpb (mem_of_mem_strip hm)
      have hkey : ctxUpdate ctx pr0 = pr0.sheet ∧ CtxOK (ctxUpdate ctx pr0) ∧
          ((stripChars p).contains '!' = false → pr0.sheet = ctx) := by
        by_cases hbang : (stripChars p).contains '!' = true
        · rw [tokenParse_bang hbang] at htp
          obtain ⟨sh, rest', hdec, hsheet, hshne⟩ :=
            parse_explicit_sheet hpartb (contains_iff_mem.mp hbang) (strip_idem p) htp
          have hshb : '\\' ∉ sh := by
            intro hm
            exact hpartb (hdec ▸ List.mem_append.mpr (Or.inl hm))
          have hshh : ∀ x, sh.head? = some x → x.isWhitespace = false := by
            intro x hx
            apply strip_head_not_ws (l := p)
            rw [hdec, List.head?_append, hx]
            rfl
          refine ⟨?_, ?_, ?_⟩
          · rw [ctxUpdate_of_some hsheet, if_neg (by simp [hshne]), hsheet]
          · rw [ctxUpdate_of_some hsheet, if_neg (by simp [hshne])]
            exact ⟨hshne, hshb, hshh⟩
          · intro hc
            rw [hc] at hbang
            cases hbang
        · rw [Bool.not_eq_true] at hbang
          have hnbm : '!' ∉ stripChars p := contains_eq_false_iff.mp hbang
          cases hc : ctx with
          | none =>
            rw [hc, tokenParse_nobang_none hbang] at htp
            have hsheet := parse_bare_sheet_none hpartb hnbm (strip_idem p) htp
            refine ⟨?_, ?_, fun _ => hsheet⟩
            · rw [ctxUpdate_of_none hsheet, hsheet]
            · rw [ctxUpdate_of_none hsheet]
              trivial
          | some c =>
            rw [hc] at hctx
            obtain ⟨hcne, hcb, hchead⟩ := hctx
            rw [hc, tokenParse_nobang_some hbang,
              if_neg (by simp [hcne])] at htp
            have hsheet := parse_joined_sheet hcb hpartb hnbm hcne hchead
              (fun x hx => strip_getLast_not_ws hx) htp
            refine ⟨?_, ?_, fun _ => hsheet⟩
            · rw [ctxUpdate_of_some hsheet, if_neg (by simp [hcne]), hsheet]
            · rw [ctxUpdate_of_some hsheet, if_neg (by simp [hcne])]
              exact ⟨hcne, hcb, hchead⟩
      have ihres := ih (ctxUpdate ctx pr0) out'
        (fun t ht => hbs t (List.mem_cons.mpr (Or.inr ht))) hkey.2.1 hrest
      refine ⟨?_, ?_, ?_⟩
      · simp [ihres.1]
      · intro t0 ht0 hnb
        rw [List.head?_cons, Option.some_inj] at ht0
        subst ht0
        exact ⟨pr0, rfl, hkey.2.2 hnb⟩
      · intro i t hti hnb
        rw [List.get?_cons_succ] at hti
        cases i with
        | zero =>
          rw [List.get?_zero] at hti
          obtain ⟨pr, hprh, hsheet⟩ := ihres.2.1 t hti hnb
          refine ⟨pr, pr0, ?_, rfl, ?_⟩
          · rw [List.get?_cons_succ, List.get?_zero]
            exact hprh
          · rw [hsheet, hkey.1]
        | succ j =>
          obtain ⟨pr, prv, h1, h2, h3⟩ := ihres.2.2 j t hti hnb
          exact ⟨pr, prv, by rw [List.get?_cons_succ]; exact h1,
            by rw [List.get?_cons_succ]; exact h2, h3⟩

/-- C6 counterexample: the claim "a token lacking a `!` inherits the most
recently specified sheet" fails on the code: shell-escape renormalisation
of the joined `{ctx}!{token}` string mutates the carried sheet.  In
`"a\\!B1,C2"` (characters `a \ \ ! B 1 , C 2`) the first token's sheet is
`a\` but the second, `'!'`-free token is parsed with sheet `a`. -/
theorem C6_counterexample_backslash_carry :
    parse_multi_range "a\\\\!B1,C2".toList =
      some [⟨some ('a' :: '\\' :: []), "B1".toList, none⟩,
            ⟨some ('a' :: []), "C2".toList, none⟩] ∧
    (stripChars "C2".toList).contains '!' = false ∧
    ('a' :: '\\' :: [] : List Char) ≠ 'a' :: [] := by
  refine ⟨by decide, by decide, by decide⟩

/-- C6 (amended): `parse_multi_range` (`parseMultiple`) splits on commas,
trims each token, and applies sheet-context carry-forward; the two spec
examples hold, and — provided the input contains no backslash (whose
shell-escape renormalisation can rewrite an inherited sheet name) — a
token lacking `'!'` takes sheet `None` in first position and otherwise
exactly the sheet of the previous entry, which is the most recently
specified sheet. -/
theorem C6_parse_multi_range_carry_forward :
    parse_multi_range "2022!H54:AT54,H149:AT149".toList =
      some [⟨some "2022".toList, "H54".toList, some "AT54".toList⟩,
            ⟨some "2022".toList, "H149".toList, some "AT149".toList⟩] ∧
    parse_multi_range "Sheet1!A1:B2,Sheet2!C3:D4".toList =
      some [⟨some "Sheet1".toList, "A1".toList, some "B2".toList⟩,
            ⟨some "Sheet2".toList, "C3".toList, some "D4".toList⟩] ∧
    (∀ (cs : List Char) (out : List ParsedRange), '\\' ∉ cs →
      parse_multi_range cs = some out →
      (∀ t0, (splitOnChar ',' cs).head? = some t0 →
        (stripChars t0).contains '!' = false →
        ∃ pr, out.head? = some pr ∧ pr.sheet = none) ∧
      (∀ i t, (splitOnChar ',' cs).get? (i + 1) = some t →
        (stripChars t).contains '!' = false →
        ∃ pr prv, out.get? (i + 1) = some pr ∧ out.get? i = some prv ∧
          pr.sheet = prv.sheet)) := by
  refine ⟨by decide, by decide, ?_⟩
  intro cs out hbs hp
  have hfree : ∀ t ∈ splitOnChar ',' cs, '\\' ∉ t :=
    fun t ht hm => hbs (mem_of_mem_splitOnChar ht hm)
  have h := multiLoop_carry (splitOnChar ',' cs) none out hfree trivial hp
  exact ⟨h.2.1, h.2.2⟩

/-- Witness for C6: the carry-forward conclusion instantiated on the
concrete input `"X!A1,B2"`, whose second token inherits sheet `X`. -/
theorem C6_parse_multi_range_carry_forward_witness :
    ∃ pr prv,
      ([(⟨some "X".toList, "A1".toList, none⟩ : ParsedRange),
        ⟨some "X".toList, "B2".toList, none⟩].get? 1 = some pr) ∧
      ([(⟨some "X".toList, "A1".toList, none⟩ : ParsedRange),
        ⟨some "X".toList, "B2".toList, none⟩].get? 0 = some prv) ∧
      pr.sheet = prv.sheet := by
  have h := C6_parse_multi_range_carry_forward
  exact (h.2.2 "X!A1,B2".toList
    [⟨some "X".toList, "A1".toList, none⟩, ⟨some "X".toList, "B2".toList, none⟩]
    (by decide) (by decide)).2 0 "B2".toList (by decide) (by decide)

/-- C7: `parse_range` (`parseSingle`) returns a structured spec exactly for
inputs whose normalised, stripped text matches the grammar (optional
`SheetName!` prefix, start cell of 1-3 letters plus digits, optional
`:end-cell`), and fails (`RangeInvalidError`, modelled as `none`) on every
other input; the three spec examples hold, surrounding whitespace is
ignored, column letters are uppercased in the output, letter matching is
case-insensitive (the grammar allows lowercase letters and the lowercase
example parses), and shell-escaped `\!` is normalised to `!` before
matching. -/
theorem C7_parse_range_grammar_exact :
    parse_range "Sheet1!A1:C10".toList =
      some ⟨some "Sheet1".toList, "A1".toList, some "C10".toList⟩ ∧
    parse_range "A1".toList = some ⟨none, "A1".toList, none⟩ ∧
    parse_range "not_a_range".toList = none ∧
    (∀ cs : List Char, (parse_range cs).isSome = true ↔
      Grammatical (stripChars (normaliseShellRef cs))) ∧
    (∀ cs : List Char, parse_range (' ' :: cs ++ [' ']) = parse_range cs) ∧
    (∀ cs r, parse_range cs = some r →
      upperChars r.start = r.start ∧ ∀ e, r.stop = some e → upperChars e = e) ∧
    parse_range "sheet1!a1:c10".toList =
      some ⟨some "sheet1".toList, "A1".toList, some "C10".toList⟩ ∧
    parse_range "2022\\!B1".toList = some ⟨some "2022".toList, "B1".toList, none⟩ := by
  refine ⟨by decide, by decide, by decide, ?_, ?_, ?_, by decide, by decide⟩
  · intro cs
    exact matchRange_isSome_iff (stripChars (normaliseShellRef cs))
  · intro cs
    unfold parse_range
    rw [List.cons_append, @norm_cons_not_backslash ' ' (by decide) (cs ++ [' ']),
      @norm_append_singleton ' ' (by decide) cs, strip_cons_space, strip_append_space]
  · intro cs r h
    exact matchRange_upper h

/-- Witness for C7: the grammar characterisation and the uppercasing
property instantiated at the concrete input `"A1"`. -/
theorem C7_parse_range_grammar_exact_witness :
    Grammatical (stripChars (normaliseShellRef "A1".toList)) ∧
      upperChars ("A1".toList) = "A1".toList := by
  have h := C7_parse_range_grammar_exact
  refine ⟨(h.2.2.2.1 "A1".toList).mp (by decide), ?_⟩
  exact (h.2.2.2.2.2.1 "A1".toList ⟨none, "A1".toList, none⟩ h.2.1).1

/-- C8: for every non-negative index `i`, `col_letter_to_index`
(`letterToIndex`) inverts `index_to_col_letter` (`indexToLetter`), and
letter lookup is case-insensitive: uppercasing the input never changes
the result. -/
theorem C8_codec_roundtrip_case_insensitive :
    (∀ i : Nat, col_letter_to_index (index_to_col_letter i) = (i : Int)) ∧
    (∀ cs : List Char, col_letter_to_index (upperChars cs) = col_letter_to_index cs) := by
  constructor
  · intro i
    rw [col_letter_to_index_eq_colVal, index_to_col_letter, colVal_indexToLetterLoop]
    push_cast
    ring
  · intro cs
    rw [col_letter_to_index_eq_colVal, col_letter_to_index_eq_colVal, colVal_map_toUpper]

/-! ### Character-class facts -/

theorem isAlpha_of_bounds {c : Char} (h1 : 65 ≤ c.toNat) (h2 : c.toNat ≤ 90) :
    c.isAlpha = true := by
  simp only [Char.isAlpha, Char.isUpper, Char.isLower, Bool.or_eq_true, Bool.and_eq_true,
    decide_eq_true_eq]
  exact Or.inl ⟨h1, h2⟩

theorem isDigit_iff_bounds {c : Char} : c.isDigit = true ↔ 48 ≤ c.toNat ∧ c.toNat ≤ 57 := by
  simp only [Char.isDigit, Bool.and_eq_true, decide_eq_true_eq]
  exact Iff.rfl

theorem alpha_not_digit {c : Char} (h : c.isAlpha = true) : c.isDigit = false := by
  simp only [Char.isAlpha, Char.isUpper, Char.isLower, Bool.or_eq_true, Bool.and_eq_true,
    decide_eq_true_eq] at h
  rw [← Bool.not_eq_true, isDigit_iff_bounds]
  rcases h with ⟨h1, _⟩ | ⟨h1, _⟩
  · have h1n : 65 ≤ c.toNat := h1
    omega
  · have h1n : 97 ≤ c.toNat := h1
    omega

theorem digit_toUpper {c : Char} (h : c.isDigit = true) : c.toUpper = c := by
  rw [isDigit_iff_bounds] at h
  rw [Char.toUpper, if_neg]
  omega

theorem upper_toUpper {c : Char} (h1 : 65 ≤ c.toNat) (h2 : c.toNat ≤ 90) :
    c.toUpper = c := by
  rw [Char.toUpper, if_neg]
  omega

theorem alpha_toUpper_bounds {c : Char} (h : c.isAlpha = true) :
    65 ≤ c.toUpper.toNat ∧ c.toUpper.toNat ≤ 90 := by
  simp only [Char.isAlpha, Char.isUpper, Char.isLower, Bool.or_eq_true, Bool.and_eq_true,
    decide_eq_true_eq] at h
  rcases h with ⟨h1, h2⟩ | ⟨h1, h2⟩
  · have h1n : 65 ≤ c.toNat := h1
    have h2n : c.toNat ≤ 90 := h2
    rw [upper_toUpper h1n h2n]
    exact ⟨h1n, h2n⟩
  · have h1n : 97 ≤ c.toNat := h1
    have h2n : c.toNat ≤ 122 := h2
    rw [Char.toUpper, if_pos (by omega)]
    have ht : (Char.ofNat (c.toNat - 32)).toNat = c.toNat - 32 :=
      toNat_ofNat_valid (by omega)
    omega

/-! ### Facts about Excel column-letter lists -/

theorem indexToLetterLoop_bounds (n : Nat) :
    ∀ x ∈ indexToLetterLoop n, 65 ≤ x.toNat ∧ x.toNat ≤ 90 := by
  induction n using Nat.strong_induction_on with
  | _ n ih =>
    rw [indexToLetterLoop]
    by_cases h : 0 < n
    · rw [dif_pos h]
      intro x hx
      rcases List.mem_append.mp hx with h1 | h2
      · have hq : (n - 1) / 26 < n := by
          have := Nat.div_le_self (n - 1) 26
          omega
        exact ih _ hq x h1
      · have hr : (n - 1) % 26 < 26 := Nat.mod_lt _ (by omega)
        rw [List.mem_singleton.mp h2]
        rw [toNat_ofNat_valid (by omega)]
        omega
    · rw [dif_neg h]
      intro x hx
      cases hx

theorem indexToLetterLoop_ne_nil {n : Nat} (h : 0 < n) : indexToLetterLoop n ≠ [] := by
  rw [indexToLetterLoop, dif_pos h]
  simp

theorem index_to_col_letter_ne_nil (c : Nat) : index_to_col_letter c ≠ [] :=
  indexToLetterLoop_ne_nil (by omega)

theorem letter_all_alpha (c : Nat) : ∀ x ∈ index_to_col_letter c, x.isAlpha = true := by
  intro x hx
  obtain ⟨h1, h2⟩ := indexToLetterLoop_bounds (c + 1) x hx
  exact isAlpha_of_bounds h1 h2

theorem letter_upper_invariant (c : Nat) :
    upperChars (index_to_col_letter c) = index_to_col_letter c := by
  unfold upperChars
  have hup : ∀ x ∈ index_to_col_letter c, x.toUpper = x := by
    intro x hx
    obtain ⟨h1, h2⟩ := indexToLetterLoop_bounds (c + 1) x hx
    exact upper_toUpper h1 h2
  calc (index_to_col_letter c).map Char.toUpper
      = (index_to_col_letter c).map id := List.map_congr_left fun x hx => hup x hx
    _ = index_to_col_letter c := List.map_id _

theorem letter_toNat_roundtrip (c : Nat) :
    col_letter_to_index (index_to_col_letter c) = (c : Int) := by
  rw [col_letter_to_index_eq_colVal, index_to_col_letter, colVal_indexToLetterLoop]
  push_cast
  ring

theorem letter_injective {i j : Nat}
    (h : index_to_col_letter i = index_to_col_letter j) : i = j := by
  have h1 := letter_toNat_roundtrip i
  have h2 := letter_toNat_roundtrip j
  rw [h] at h1
  have : (i : Int) = (j : Int) := h1.symm.trans h2
  exact_mod_cast this

theorem letter_mem_all_iff {w i : Nat} :
    index_to_col_letter i ∈ (List.range w).map index_to_col_letter ↔ i < w := by
  constructor
  · intro h
    obtain ⟨j, hj, he⟩ := List.mem_map.mp h
    rw [← letter_injective he]
    exact List.mem_range.mp hj
  · intro h
    exact List.mem_map.mpr ⟨i, List.mem_range.mpr h, rfl⟩

theorem findIdx_letter_range :
    ∀ (k a i s : Nat), i < k →
      (((List.range k).map (fun j => index_to_col_letter (a + j))).findIdx?
        (· == index_to_col_letter (a + i)) s) = some (s + i) := by
  intro k
  induction k with
  | zero =>
    intro a i s h
    omega
  | succ k ih =>
    intro a i s hi
    rw [List.range_succ_eq_map, List.map_cons, List.map_map, List.findIdx?_cons]
    cases i with
    | zero =>
      rw [if_pos (by simp)]
      simp
    | succ j =>
      rw [if_neg]
      · have heq : ((fun j => index_to_col_letter (a + j)) ∘ Nat.succ) =
            fun m => index_to_col_letter ((a + 1) + m) := by
          funext m
          simp only [Function.comp]
          congr 1
          omega
        have hidx : a + (j + 1) = (a + 1) + j := by omega
        rw [heq, hidx, ih (a + 1) j (s + 1) (by omega)]
        congr 1
        omega
      · simp only [beq_iff_eq]
        intro he
        have := letter_injective he
        omega

theorem indexOf?_letter {w i : Nat} (hi : i < w) :
    ((List.range w).map index_to_col_letter).indexOf? (index_to_col_letter i) = some i := by
  have h := findIdx_letter_range w 0 i 0 hi
  simp only [Nat.zero_add] at h
  exact h

/-! ### Decimal digits of a row number -/

theorem natDigitsLoop_bounds (n : Nat) :
    ∀ x ∈ natDigitsLoop n, 48 ≤ x.toNat ∧ x.toNat ≤ 57 := by
  induction n using Nat.strong_induction_on with
  | _ n ih =>
    rw [natDigitsLoop]
    by_cases h : 0 < n
    · rw [dif_pos h]
      intro x hx
      rcases List.mem_append.mp hx with h1 | h2
      · exact ih _ (Nat.div_lt_self h (by omega)) x h1
      · have hr : n % 10 < 10 := Nat.mod_lt _ (by omega)
        rw [List.mem_singleton.mp h2, toNat_ofNat_valid (by omega)]
        omega
    · rw [dif_neg h]
      intro x hx
      cases hx

theorem digitsVal_append (l : List Char) (c : Char) :
    digitsVal (l ++ [c]) = digitsVal l * 10 + (c.toNat - 48) := by
  simp [digitsVal, List.foldl_append]

theorem digitsVal_natDigitsLoop (n : Nat) : digitsVal (natDigitsLoop n) = n := by
  induction n using Nat.strong_induction_on with
  | _ n ih =>
    rw [natDigitsLoop]
    by_cases h : 0 < n
    · rw [dif_pos h, digitsVal_append, ih _ (Nat.div_lt_self h (by omega)),
        toNat_ofNat_valid (by omega)]
      have hdm := Nat.div_add_mod n 10
      have hr : n % 10 < 10 := Nat.mod_lt _ (by omega)
      omega
    · rw [dif_neg h]
      simp only [digitsVal, List.foldl_nil]
      omega

theorem natDigitsLoop_ne_nil {n : Nat} (h : 0 < n) : natDigitsLoop n ≠ [] := by
  rw [natDigitsLoop, dif_pos h]
  simp

theorem natDigits_ne_nil (n : Nat) : natDigits n ≠ [] := by
  unfold natDigits
  by_cases h : n = 0
  · rw [if_pos h]
    simp
  · rw [if_neg h]
    exact natDigitsLoop_ne_nil (by omega)

theorem natDigits_all_digit (n : Nat) : ∀ x ∈ natDigits n, x.isDigit = true := by
  unfold natDigits
  by_cases h : n = 0
  · rw [if_pos h]
    intro x hx
    rw [List.mem_singleton.mp hx]
    decide
  · rw [if_neg h]
    intro x hx
    obtain ⟨h1, h2⟩ := natDigitsLoop_bounds n x hx
    exact isDigit_iff_bounds.mpr ⟨h1, h2⟩

theorem digitsVal_natDigits (n : Nat) : digitsVal (natDigits n) = n := by
  unfold natDigits
  by_cases h : n = 0
  · rw [if_pos h, h]
    decide
  · rw [if_neg h]
    exact digitsVal_natDigitsLoop n

theorem digitsToNat?_natDigits (n : Nat) : digitsToNat? (natDigits n) = some n := by
  unfold digitsToNat?
  rw [if_neg (natDigits_ne_nil n), digitsVal_natDigits]

theorem lettersOf_cellref {cs ls ds : List Char} (h : CellRef cs ls ds) :
    lettersOf cs = ls := by
  obtain ⟨rfl, _, hal, _, hdig⟩ := h
  unfold lettersOf
  rw [List.filter_append, List.filter_eq_self.mpr hal, List.filter_eq_nil.mpr, List.append_nil]
  intro c hc
  rw [digit_not_alpha (hdig c hc)]
  exact Bool.false_ne_true

theorem digitsOf_cellref {cs ls ds : List Char} (h : CellRef cs ls ds) :
    digitsOf cs = ds := by
  obtain ⟨rfl, _, hal, _, hdig⟩ := h
  unfold digitsOf
  rw [List.filter_append, List.filter_eq_self.mpr hdig, List.filter_eq_nil.mpr,
    List.nil_append]
  intro c hc
  rw [alpha_not_digit (hal c hc)]
  exact Bool.false_ne_true

theorem upperChars_append (l1 l2 : List Char) :
    upperChars (l1 ++ l2) = upperChars l1 ++ upperChars l2 := by
  unfold upperChars
  exact List.map_append _ _ _

theorem upperChars_digits {ds : List Char} (h : ∀ c ∈ ds, c.isDigit = true) :
    upperChars ds = ds := by
  unfold upperChars
  calc ds.map Char.toUpper = ds.map id :=
        List.map_congr_left fun x hx => digit_toUpper (h x hx)
    _ = ds := List.map_id _

theorem upperChars_ne_nil {l : List Char} (h : l ≠ []) : upperChars l ≠ [] := by
  unfold upperChars
  intro hc
  exact h (List.map_eq_nil.mp hc)

/-- The regex `^([A-Z]+)(\d+)$` on a well-formed cell reference: matches
with the uppercased letters and the digit value. -/
theorem regexColRow_cellref {cs ls ds : List Char} (h : CellRef cs ls ds) :
    regexColRow cs = some (upperChars ls, digitsVal ds) := by
  obtain ⟨rfl, hlne, hal, hdne, hdig⟩ := h
  unfold regexColRow
  rw [upperChars_append, upperChars_digits hdig]
  have hupal : ∀ c ∈ upperChars ls, c.isAlpha = true := by
    intro c hc
    obtain ⟨x, hx, rfl⟩ := List.mem_map.mp hc
    obtain ⟨h1, h2⟩ := alpha_toUpper_bounds (hal x hx)
    exact isAlpha_of_bounds h1 h2
  have hds : ∀ h t, ds = h :: t → Char.isAlpha h = false := by
    intro hh t hht
    exact digit_not_alpha (hdig hh (by simp [hht]))
  obtain ⟨ht, hd⟩ := takeWhile_append_all hupal hds
  rw [ht, hd, if_pos]
  exact ⟨upperChars_ne_nil hlne, hdne, List.all_eq_true.mpr hdig⟩

theorem colIdx_upperChars (ls : List Char) :
    col_letter_to_index (upperChars ls) = col_letter_to_index ls := by
  rw [col_letter_to_index_eq_colVal, col_letter_to_index_eq_colVal, colVal_map_toUpper]

/-! ### Canonical forms of the clamp and the slices -/

/-- Behaviour of the shared end-column clamp when the start column is
within the sheet. -/
theorem clampEndCol_spec {width sc ec : Nat} (hscw : sc < width) (L : List Char) :
    clampEndCol width (sc : Int) (ec : Int) L =
      (((min ec (width - 1) : Nat) : Int),
        if width ≤ ec then
          some (oobWarning L (width - 1) ((ec : Int) - ((width : Int) - 1)))
        else none) := by
  unfold clampEndCol
  by_cases h : (ec : Int) > (width : Int) - 1
  · rw [if_pos h]
    have hmax : max ((width : Int) - 1) (sc : Int) = (width : Int) - 1 := by omega
    have hmin : min ec (width - 1) = width - 1 := by omega
    have htn : ((width : Int) - 1).toNat = width - 1 := by omega
    rw [hmax, hmin]
    have hom : (ec : Int) - ((width : Int) - 1) > 0 := by omega
    rw [if_pos hom]
    have hcast : (((width - 1 : Nat)) : Int) = (width : Int) - 1 := by omega
    rw [if_pos (by omega : width ≤ ec), hcast, htn]
  · rw [if_neg h]
    have hmin : min ec (width - 1) = ec := by omega
    rw [hmin, if_neg (by omega : ¬ width ≤ ec)]

theorem filterMap_get?_range {α : Type} (r : List α) :
    ∀ (k a : Nat), a + k ≤ r.length →
      (List.range k).filterMap (fun i => r.get? (a + i)) = (r.drop a).take k := by
  intro k
  induction k with
  | zero =>
    intro a _
    simp
  | succ k ih =>
    intro a hk
    rw [List.range_succ_eq_map, List.filterMap_cons]
    have ha : a < r.length := by omega
    have hget : r.get? (a + 0) = some r[a] := by
      rw [Nat.add_zero, List.get?_eq_getElem?, List.getElem?_eq_getElem ha]
    rw [hget, List.filterMap_map]
    have hfun : ((fun i => r.get? (a + i)) ∘ Nat.succ) = fun i => r.get? ((a + 1) + i) := by
      funext i
      simp only [Function.comp]
      congr 1
      omega
    rw [hfun, ih (a + 1) (by omega)]
    rw [List.drop_eq_getElem_cons ha, List.take_cons (by omega : 0 < k + 1)]
    simp

theorem cellRef_ne_nil {cs ls ds : List Char} (h : CellRef cs ls ds) : cs ≠ [] := by
  obtain ⟨rfl, hlne, _, _, _⟩ := h
  simp [hlne]

theorem digitsToNat?_cellref {cs ls ds : List Char} (h : CellRef cs ls ds) :
    digitsToNat? (digitsOf cs) = some (digitsVal ds) := by
  rw [digitsOf_cellref h]
  unfold digitsToNat?
  rw [if_neg h.2.2.2.1]

/-- Canonical form of the single-range read path under a well-formed
range whose start column lies within the sheet. -/
theorem readSingleRange_spec {α : Type} (s : Sheet α) {ri : ParsedRange}
    {sls sds els eds : List Char} {sc sr ec er : Nat}
    (hscell : CellRef ri.start sls sds)
    (hsidx : col_letter_to_index sls = (sc : Int))
    (hsval : digitsVal sds = sr)
    (hstop : (ri.stop = none ∧ els = sls ∧ eds = sds) ∨
      (∃ e, ri.stop = some e ∧ CellRef e els eds))
    (heidx : col_letter_to_index els = (ec : Int))
    (heval : digitsVal eds = er)
    (hscw : sc < s.width) :
    readSingleRange s ri =
      .ok ((((s.rows.drop (sr - 1)).take (er + 1 - sr)).map
          fun r => (r.drop sc).take (min ec (s.width - 1) + 1 - sc)),
        if s.width ≤ ec then
          some (oobWarning els (s.width - 1) ((ec : Int) - ((s.width : Int) - 1)))
        else none) := by
  have h1 : digitsToNat? (digitsOf ri.start) = some sr := by
    rw [digitsToNat?_cellref hscell, hsval]
  have hminw : (min ec (s.width - 1)) < s.width := by omega
  have hexact : read_exact_range s sc (min ec (s.width - 1)) sr er =
      .ok (((s.rows.drop (sr - 1)).take (er + 1 - sr)).map
        fun r => (r.drop sc).take (min ec (s.width - 1) + 1 - sc)) := by
    unfold read_exact_range
    rw [if_pos hminw]
  rcases hstop with ⟨hnone, hels, heds⟩ | ⟨e, hsome, hecell⟩
  · subst hels
    subst heds
    have hec : ec = sc := by
      have hint : (ec : Int) = (sc : Int) := heidx.symm.trans hsidx
      exact_mod_cast hint
    have her : er = sr := by
      have := hsval.symm.trans heval
      omega
    subst hec
    subst her
    simp only [readSingleRange, h1, hnone, lettersOf_cellref hscell, hsidx,
      clampEndCol_spec hscw, Int.toNat_natCast, hexact]
    rfl
  · have he_ne : e ≠ [] := cellRef_ne_nil hecell
    simp only [readSingleRange, h1, hsome, he_ne, if_false,
      lettersOf_cellref hscell, lettersOf_cellref hecell, hsidx,
      digitsToNat?_cellref hecell, heval, heidx,
      clampEndCol_spec hscw, Int.toNat_natCast, hexact]
    rfl

theorem mem_of_mem_take_drop {β : Type} {x : β} {l : List β} {a b : Nat}
    (h : x ∈ (l.drop a).take b) : x ∈ l := by
  have h1 := (List.take_sublist b (l.drop a)).mem h
  exact (List.drop_sublist a l).mem h1

/-- Canonical form of one batch-sliced range under a well-formed range
whose start column lies within the sheet. -/
theorem readOneFromBatch_spec {α : Type} (fullRows : List (List α)) (width : Nat)
    {ri : ParsedRange} {sls sds els eds : List Char} {sc sr ec er : Nat}
    (hrect : ∀ r ∈ fullRows, r.length = width)
    (hscell : CellRef ri.start sls sds)
    (hsidx : col_letter_to_index sls = (sc : Int))
    (hsval : digitsVal sds = sr)
    (hstop : (ri.stop = none ∧ els = sls ∧ eds = sds) ∨
      (∃ e, ri.stop = some e ∧ CellRef e els eds))
    (heidx : col_letter_to_index els = (ec : Int))
    (heval : digitsVal eds = er)
    (hscw : sc < width) (hsce : sc ≤ ec) :
    readOneFromBatch fullRows width ri =
      (((fullRows.drop (sr - 2)).take (er + 1 - sr)).map
          fun r => (r.drop sc).take (min ec (width - 1) + 1 - sc),
        if width ≤ ec then
          some (oobWarning (upperChars els) (width - 1) ((ec : Int) - ((width : Int) - 1)))
        else none) := by
  have hstart_ne : ri.start ≠ [] := cellRef_ne_nil hscell
  have hregex_s : regexColRow ri.start = some (upperChars sls, sr) := by
    rw [regexColRow_cellref hscell, hsval]
  have hsupper : col_letter_to_index (upperChars sls) = (sc : Int) := by
    rw [colIdx_upperChars, hsidx]
  have hslice : ∀ k : Nat, ((fullRows.drop ((sr : Int) - 2).toNat).take k) =
      (fullRows.drop (sr - 2)).take k := by
    intro k
    congr 1
    congr 1
    omega
  have hcols : ∀ k : Nat, sc + k ≤ width →
      ∀ r : List α, r.length = width →
      ((List.range k).map fun i => index_to_col_letter (sc + i)).filterMap
        (fun l => (((List.range width).map index_to_col_letter).indexOf? l).bind r.get?) =
        (r.drop sc).take k := by
    intro k hk r hr
    rw [List.filterMap_map]
    have hcong : ∀ i ∈ List.range k,
        ((fun l => (((List.range width).map index_to_col_letter).indexOf? l).bind r.get?) ∘
          fun i => index_to_col_letter (sc + i)) i = r.get? (sc + i) := by
      intro i hi
      have hiw : sc + i < width := by
        have := List.mem_range.mp hi
        omega
      simp only [Function.comp]
      rw [indexOf?_letter hiw, Option.some_bind]
    rw [List.filterMap_congr hcong, filterMap_get?_range r k sc (by omega)]
  have hfilter : ∀ k : Nat, sc + k ≤ width →
      ((List.range k).map fun i => index_to_col_letter (sc + i)).filter
        (· ∈ (List.range width).map index_to_col_letter) =
        (List.range k).map fun i => index_to_col_letter (sc + i) := by
    intro k hk
    rw [List.filter_eq_self]
    intro l hl
    obtain ⟨i, hi, rfl⟩ := List.mem_map.mp hl
    have hiw : sc + i < width := by
      have := List.mem_range.mp hi
      omega
    simp only [decide_eq_true_eq]
    exact letter_mem_all_iff.mpr hiw
  have hrange_ne : ∀ k : Nat, k ≠ 0 →
      ((List.range k).map fun i => index_to_col_letter (sc + i)) ≠ [] := by
    intro k hk hc
    rw [List.map_eq_nil_iff, List.range_eq_nil] at hc
    exact hk hc
  rcases hstop with ⟨hnone, hels, heds⟩ | ⟨e, hsome, hecell⟩
  · subst hels
    subst heds
    have hec : ec = sc := by
      have hint : (ec : Int) = (sc : Int) := heidx.symm.trans hsidx
      exact_mod_cast hint
    have her : er = sr := by
      have := hsval.symm.trans heval
      omega
    subst hec
    subst her
    have hmin : min ec (width - 1) = ec := by omega
    simp only [readOneFromBatch, hstart_ne, if_false, hregex_s, hnone, hsupper,
      Int.toNat_natCast, clampEndCol_spec hscw, hmin, hslice]
    rw [if_neg (by omega : ¬ width ≤ ec)]
    rw [hfilter (ec + 1 - ec) (by omega)]
    rw [List.isEmpty_eq_false.mpr (hrange_ne (ec + 1 - ec) (by omega))]
    rw [if_neg (by simp)]
    have hmapeq :
        ((fullRows.drop (er - 2)).take (er + 1 - er)).map
          (fun r => ((List.range (ec + 1 - ec)).map fun i => index_to_col_letter (ec + i)).filterMap
            (fun l => (((List.range width).map index_to_col_letter).indexOf? l).bind r.get?)) =
        ((fullRows.drop (er - 2)).take (er + 1 - er)).map
          (fun r => (r.drop ec).take (ec + 1 - ec)) :=
      List.map_congr_left fun r hr =>
        hcols (ec + 1 - ec) (by omega) r (hrect r (mem_of_mem_take_drop hr))
    rw [hmapeq, if_neg (by omega : ¬ width ≤ ec)]
  · have he_ne : e ≠ [] := cellRef_ne_nil hecell
    have hregex_e : regexColRow e = some (upperChars els, er) := by
      rw [regexColRow_cellref hecell, heval]
    have heupper : col_letter_to_index (upperChars els) = (ec : Int) := by
      rw [colIdx_upperChars, heidx]
    have hksc : sc + (min ec (width - 1) + 1 - sc) ≤ width := by omega
    simp only [readOneFromBatch, hstart_ne, if_false, hregex_s, hsome, he_ne,
      hregex_e, hsupper, heupper, Int.toNat_natCast, clampEndCol_spec hscw, hslice]
    rw [hfilter (min ec (width - 1) + 1 - sc) hksc]
    rw [List.isEmpty_eq_false.mpr (hrange_ne (min ec (width - 1) + 1 - sc) (by omega))]
    rw [if_neg (by simp)]
    have hmapeq :
        ((fullRows.drop (sr - 2)).take (er + 1 - sr)).map
          (fun r => ((List.range (min ec (width - 1) + 1 - sc)).map
              fun i => index_to_col_letter (sc + i)).filterMap
            (fun l => (((List.range width).map index_to_col_letter).indexOf? l).bind r.get?)) =
        ((fullRows.drop (sr - 2)).take (er + 1 - sr)).map
          (fun r => (r.drop sc).take (min ec (width - 1) + 1 - sc)) :=
      List.map_congr_left fun r hr =>
        hcols (min ec (width - 1) + 1 - sc) hksc r (hrect r (mem_of_mem_take_drop hr))
    rw [hmapeq]

/-- C1: reading several disjoint ranges through the batch single-load path
(`read_multi_ranges`) gives, for each range, the same data block and the
same warning as an independent single-range read (`readSingleRange`,
embedding `_read_single_range` / `read_exact_range`) — provided the range
is well-formed, uppercased, starts at Excel row 2 or below, and its start
column lies inside the sheet.  (The unrestricted claim fails at row 1:
see the counterexample.) -/
theorem C1_batch_read_matches_single_read {α : Type} (s : Sheet α)
    (ranges : List ParsedRange) (i : Nat) {ri : ParsedRange}
    {sls sds els eds : List Char} {sc sr ec er : Nat}
    (hi : ranges.get? i = some ri)
    (hrect : s.Rect)
    (hscell : CellRef ri.start sls sds)
    (hsidx : col_letter_to_index sls = (sc : Int))
    (hsval : digitsVal sds = sr)
    (hstop : (ri.stop = none ∧ els = sls ∧ eds = sds) ∨
      (∃ e, ri.stop = some e ∧ CellRef e els eds))
    (heidx : col_letter_to_index els = (ec : Int))
    (heval : digitsVal eds = er)
    (hup : upperChars els = els)
    (h2sr : 2 ≤ sr)
    (hscw : sc < s.width) (hsce : sc ≤ ec) :
    ∃ block warn, (read_multi_ranges s ranges).get? i = some (block, warn) ∧
      readSingleRange s ri = .ok (block, warn) := by
  refine ⟨((s.rows.drop (sr - 1)).take (er + 1 - sr)).map
      (fun r => (r.drop sc).take (min ec (s.width - 1) + 1 - sc)),
    if s.width ≤ ec then
      some (oobWarning els (s.width - 1) ((ec : Int) - ((s.width : Int) - 1)))
    else none, ?_, ?_⟩
  · have hfull : ∀ r ∈ s.rows.drop 1, r.length = s.width := fun r hr =>
      hrect r ((List.drop_sublist 1 s.rows).mem hr)
    have hone := readOneFromBatch_spec (s.rows.drop 1) s.width hfull hscell hsidx
      hsval hstop heidx heval hscw hsce
    have hdd : (s.rows.drop 1).drop (sr - 2) = s.rows.drop (sr - 1) := by
      rw [List.drop_drop]
      congr 1
      omega
    rw [hdd, hup] at hone
    simp only [read_multi_ranges]
    rw [List.get?_map, hi, Option.map_some', hone]
  · exact readSingleRange_spec s hscell hsidx hsval hstop heidx heval hscw

theorem C1_batch_read_matches_single_read_witness :
    ∃ block warn,
      (read_multi_ranges (⟨2, [[1, 2], [3, 4], [5, 6]]⟩ : Sheet Nat)
          [⟨none, ['A', '2'], some ['B', '2']⟩, ⟨none, ['A', '3'], none⟩]).get? 0 =
        some (block, warn) ∧
      readSingleRange (⟨2, [[1, 2], [3, 4], [5, 6]]⟩ : Sheet Nat)
          ⟨none, ['A', '2'], some ['B', '2']⟩ = .ok (block, warn) :=
  C1_batch_read_matches_single_read _ _ 0 rfl (by intro r hr; fin_cases hr <;> rfl)
    (⟨rfl, by decide, by decide, by decide, by decide⟩ :
      CellRef ['A', '2'] ['A'] ['2'])
    (by decide : col_letter_to_index ['A'] = ((0 : Nat) : Int))
    (by decide : digitsVal ['2'] = 2)
    (Or.inr ⟨['B', '2'], rfl,
      (⟨rfl, by decide, by decide, by decide, by decide⟩ :
        CellRef ['B', '2'] ['B'] ['2'])⟩)
    (by decide : col_letter_to_index ['B'] = ((1 : Nat) : Int))
    (by decide : digitsVal ['2'] = 2)
    (by decide) (by decide) (by decide) (by decide)

theorem C1_counterexample_first_data_row :
    (read_multi_ranges (⟨1, [[10], [20]]⟩ : Sheet Nat)
        [⟨none, ['A', '1'], none⟩, ⟨none, ['A', '2'], none⟩]).get? 0 =
      some ([[20]], none) ∧
    readSingleRange (⟨1, [[10], [20]]⟩ : Sheet Nat) ⟨none, ['A', '1'], none⟩ =
      .ok ([[10]], none) ∧
    ([[20]] : List (List Nat)) ≠ [[10]] := by
  refine ⟨?_, rfl, by decide⟩
  have hone := @readOneFromBatch_spec Nat [[20]] 1 ⟨none, ['A', '1'], none⟩
    ['A'] ['1'] ['A'] ['1'] 0 1 0 1 (by decide)
    ⟨rfl, by decide, by decide, by decide, by decide⟩ (by decide) (by decide)
    (Or.inl ⟨rfl, rfl, rfl⟩) (by decide) (by decide) (by decide) (by decide)
  rw [show (read_multi_ranges (⟨1, [[10], [20]]⟩ : Sheet Nat)
        [⟨none, ['A', '1'], none⟩, ⟨none, ['A', '2'], none⟩]).get? 0 =
      some (readOneFromBatch [[20]] 1 ⟨none, ['A', '1'], none⟩) from rfl, hone]
  rfl

theorem oobWarning_ne_empty (L : List Char) (i : Nat) (o : Int) :
    oobWarning L i o ≠ "" := by
  intro h
  have hlen := congrArg String.length h
  rw [oobWarning] at hlen
  simp only [String.length_append] at hlen
  have h1 : ("Requested through column " : String).length = 25 := rfl
  have h2 : ("" : String).length = 0 := rfl
  rw [h1, h2] at hlen
  omega

/-- C4: when the requested end column exceeds the sheet's last column but
the start column is inside the sheet, both read paths succeed, clamp the
end column to the sheet's last column, and attach the same non-empty
omitted-columns warning.  (The unrestricted claim fails when the start
column also lies beyond the sheet: see the counterexample, where the
single-range path raises the column-out-of-bounds error.) -/
theorem C4_end_column_clamp_never_fails {α : Type} (s : Sheet α)
    {ri : ParsedRange} {sls sds els eds : List Char} {sc sr ec er : Nat}
    (hrect : s.Rect)
    (hscell : CellRef ri.start sls sds)
    (hsidx : col_letter_to_index sls = (sc : Int))
    (hsval : digitsVal sds = sr)
    (hstop : (ri.stop = none ∧ els = sls ∧ eds = sds) ∨
      (∃ e, ri.stop = some e ∧ CellRef e els eds))
    (heidx : col_letter_to_index els = (ec : Int))
    (heval : digitsVal eds = er)
    (hup : upperChars els = els)
    (hscw : sc < s.width) (hexceed : s.width ≤ ec) :
    ∃ w : String, w ≠ "" ∧
      readSingleRange s ri =
        .ok (((s.rows.drop (sr - 1)).take (er + 1 - sr)).map
          (fun r => (r.drop sc).take (s.width - sc)), some w) ∧
      readOneFromBatch (s.rows.drop 1) s.width ri =
        ((((s.rows.drop 1).drop (sr - 2)).take (er + 1 - sr)).map
          (fun r => (r.drop sc).take (s.width - sc)), some w) := by
  have hsce : sc ≤ ec := by omega
  have htake : min ec (s.width - 1) + 1 - sc = s.width - sc := by omega
  have hfull : ∀ r ∈ s.rows.drop 1, r.length = s.width := fun r hr =>
    hrect r ((List.drop_sublist 1 s.rows).mem hr)
  have hone := readOneFromBatch_spec (s.rows.drop 1) s.width hfull hscell hsidx
    hsval hstop heidx heval hscw hsce
  have hsingle := readSingleRange_spec s hscell hsidx hsval hstop heidx heval hscw
  rw [htake, if_pos hexceed] at hone hsingle
  rw [hup] at hone
  exact ⟨oobWarning els (s.width - 1) ((ec : Int) - ((s.width : Int) - 1)),
    oobWarning_ne_empty _ _ _, hsingle, hone⟩

theorem C4_end_column_clamp_never_fails_witness :
    ∃ w : String, w ≠ "" ∧
      readSingleRange (⟨3, [[1, 2, 3], [4, 5, 6]]⟩ : Sheet Nat)
          ⟨none, ['A', '2'], some ['Z', '2']⟩ = .ok ([[4, 5, 6]], some w) ∧
      readOneFromBatch [[4, 5, 6]] 3 ⟨none, ['A', '2'], some ['Z', '2']⟩ =
        ([[4, 5, 6]], some w) := by
  obtain ⟨w, hw, hsingle, hone⟩ :=
    @C4_end_column_clamp_never_fails Nat (⟨3, [[1, 2, 3], [4, 5, 6]]⟩ : Sheet Nat)
      ⟨none, ['A', '2'], some ['Z', '2']⟩ ['A'] ['2'] ['Z'] ['2'] 0 2 25 2
      (by intro r hr; fin_cases hr <;> rfl)
      ⟨rfl, by decide, by decide, by decide, by decide⟩
      (by decide) (by decide)
      (Or.inr ⟨['Z', '2'], rfl, ⟨rfl, by decide, by decide, by decide, by decide⟩⟩)
      (by decide) (by decide) (by decide) (by decide) (by decide)
  exact ⟨w, hw, hsingle, hone⟩

theorem C4_counterexample_start_beyond_width :
    readSingleRange (⟨3, [[1, 2, 3], [4, 5, 6], [7, 8, 9]]⟩ : Sheet Nat)
        ⟨none, ['Z', '2'], some ['Z', '3']⟩ =
      .error "column index out of bounds" := rfl

theorem searchLoop_spec {α : Type} (limit : Nat) (p : α → Bool) :
    ∀ (cells acc : List α), acc.length < limit →
      searchLoop limit p acc cells =
        acc ++ (cells.filter p).take (limit - acc.length) := by
  intro cells
  induction cells with
  | nil =>
    intro acc h
    simp [searchLoop]
  | cons c rest ih =>
    intro acc h
    rw [searchLoop]
    by_cases hp : p c = true
    · rw [if_pos hp]
      have hlac : (acc ++ [c]).length = acc.length + 1 := by simp
      by_cases hl : limit ≤ (acc ++ [c]).length
      · rw [if_pos hl]
        have hone : limit - acc.length = 1 := by omega
        rw [List.filter_cons_of_pos hp, hone, List.take_succ_cons, List.take_zero]
      · rw [if_neg hl]
        rw [ih _ (by omega)]
        have hsub : limit - (acc ++ [c]).length = limit - acc.length - 1 := by
          omega
        obtain ⟨k, hk⟩ : ∃ k, limit - acc.length = k + 1 :=
          ⟨limit - acc.length - 1, by omega⟩
        rw [hsub, List.filter_cons_of_pos hp, hk, List.take_succ_cons,
          List.append_assoc]
        rfl
    · rw [if_neg hp, ih _ h, List.filter_cons_of_neg hp]

theorem search_values_take {α : Type} (limit : Nat) (cells : List α)
    (p : α → Bool) (hlim : 1 ≤ limit) :
    search_values limit cells p = (cells.filter p).take limit := by
  rw [search_values, searchLoop_spec limit p cells [] (by simpa using hlim)]
  simp

/-- C2: with a positive limit, search returns exactly the first
`min limit total` matches in visitation order — at least `limit` matches
give exactly `limit` results, at most `limit` give all of them.  The
command's `truncated` flag is `len(matches) >= MAX_SEARCH_RESULTS`, so at
the command's own limit (`MAX_SEARCH_RESULTS`) it is true exactly when
the total match count reaches `MAX_SEARCH_RESULTS` — including the
boundary where the total equals the limit and nothing was dropped (see
the counterexample; the spec promises `truncated = false` whenever the
total is at most the limit). -/
theorem C2_search_cap_and_truncation {α : Type} (cells : List α)
    (p : α → Bool) (limit : Nat) (hlim : 1 ≤ limit) :
    search_values limit cells p = (cells.filter p).take limit ∧
    (search_values limit cells p).length =
      min limit (cells.filter p).length ∧
    (search_cmd_truncated (search_values MAX_SEARCH_RESULTS cells p) = true ↔
      MAX_SEARCH_RESULTS ≤ (cells.filter p).length) := by
  have hmax := search_values_take MAX_SEARCH_RESULTS cells p (by decide)
  refine ⟨search_values_take limit cells p hlim, ?_, ?_⟩
  · rw [search_values_take limit cells p hlim, List.length_take]
  · rw [search_cmd_truncated, hmax, List.length_take]
    simp only [decide_eq_true_eq]
    omega

theorem C2_search_cap_and_truncation_witness :
    search_values 1000 ([1, 2, 3] : List Nat) (fun x => Nat.ble x 2) =
      (([1, 2, 3] : List Nat).filter fun x => Nat.ble x 2).take 1000 ∧
    (search_values 1000 ([1, 2, 3] : List Nat) (fun x => Nat.ble x 2)).length =
      min 1000 (([1, 2, 3] : List Nat).filter fun x => Nat.ble x 2).length ∧
    (search_cmd_truncated
        (search_values MAX_SEARCH_RESULTS ([1, 2, 3] : List Nat)
          (fun x => Nat.ble x 2)) = true ↔
      MAX_SEARCH_RESULTS ≤
        (([1, 2, 3] : List Nat).filter fun x => Nat.ble x 2).length) :=
  C2_search_cap_and_truncation ([1, 2, 3] : List Nat) (fun x => Nat.ble x 2)
    1000 (by decide)

theorem C2_counterexample_truncated_at_exact_limit :
    search_values MAX_SEARCH_RESULTS (List.range 25) (fun _ => true) =
      List.range 25 ∧
    ((List.range 25).filter (fun _ => true)).length = 25 ∧
    search_cmd_truncated
      (search_values MAX_SEARCH_RESULTS (List.range 25) (fun _ => true)) =
      true ∧
    search_values 0 [(0 : Nat)] (fun _ => true) = [0] := by
  refine ⟨by decide, by decide, by decide, by decide⟩

theorem take_chunk_split {ρ : Type} (src : List ρ) (offset c t : Nat)
    (hct : c ≤ t) :
    (src.drop offset).take t =
      (src.drop offset).take c ++
        (src.drop (offset + c)).take (t - min c (src.length - offset)) := by
  have hdd : (src.drop offset).drop c = src.drop (offset + c) := by
    rw [List.drop_drop, Nat.add_comm]
  have hlen : (src.drop offset).length = src.length - offset :=
    List.length_drop _ _
  rcases le_or_lt c (src.length - offset) with hle | hlt
  · have hmin : min c (src.length - offset) = c := by omega
    rw [hmin, ← hdd, ← List.take_add]
    congr 1
    omega
  · have hnil : (src.drop offset).drop c = [] := by
      apply List.drop_eq_nil_of_le
      omega
    rw [hdd] at hnil
    rw [hnil, List.take_nil, List.append_nil]
    have h1 : (src.drop offset).take t = src.drop offset :=
      List.take_of_length_le (by omega)
    have h2 : (src.drop offset).take c = src.drop offset :=
      List.take_of_length_le (by omega)
    rw [h1, h2]

theorem chunkLoop_flatten {ρ : Type} (src : List ρ) (target : Nat) :
    ∀ (fuel rows_read offset : Nat), target - rows_read ≤ fuel →
      (chunkLoop src target rows_read offset).flatten =
        (src.drop offset).take (target - rows_read) := by
  intro fuel
  induction fuel with
  | zero =>
    intro rows_read offset hf
    rw [chunkLoop, dif_neg (by omega), List.flatten_nil]
    have h0 : target - rows_read = 0 := by omega
    rw [h0, List.take_zero]
  | succ fuel ih =>
    intro rows_read offset hf
    rw [chunkLoop]
    by_cases h : rows_read < target ∧ offset < src.length
    · rw [dif_pos h, List.flatten_cons]
      have hlen : ((src.drop offset).take
          (min CHUNK_SIZE_ROWS (target - rows_read))).length =
          min (min CHUNK_SIZE_ROWS (target - rows_read))
            (src.length - offset) := by
        rw [List.length_take, List.length_drop]
      rw [hlen, ih _ _ (by simp only [CHUNK_SIZE_ROWS] at *; omega)]
      have harith : target -
          (rows_read + min (min CHUNK_SIZE_ROWS (target - rows_read))
            (src.length - offset)) =
          (target - rows_read) -
            min (min CHUNK_SIZE_ROWS (target - rows_read))
              (src.length - offset) := by omega
      rw [harith]
      have hsplit := take_chunk_split src offset
        (min CHUNK_SIZE_ROWS (target - rows_read)) (target - rows_read)
        (by omega)
      exact hsplit.symm
    · rw [dif_neg h, List.flatten_nil]
      rcases lt_or_ge rows_read target with h1 | h1
      · have h2 : src.length ≤ offset := by
          rcases lt_or_ge offset src.length with h3 | h3
          · exact absurd ⟨h1, h3⟩ h
          · exact h3
        rw [List.drop_eq_nil_of_le h2, List.take_nil]
      · have h0 : target - rows_read = 0 := by omega
        rw [h0, List.take_zero]

/-- C3: the chunked loading strategy is output-equivalent to a direct
load — for every sheet, row offset and requested row count,
`_read_chunked`'s fixed-size chunk loop concatenates to exactly the
unbounded direct load of the same request, and `read_sheet_data` returns
the direct-load result whichever branch its size/row-cap selection rule
picks (in particular when the source size is below the byte threshold or
an explicit row cap — e.g. one narrower than the chunk size — forces the
direct branch). -/
theorem C3_chunked_load_equals_direct_load {ρ : Type} (src : List ρ)
    (size skip_rows : Nat) (n_rows : Option Nat) :
    read_chunked src skip_rows n_rows = directLoad src skip_rows n_rows ∧
    read_sheet_data src size skip_rows n_rows =
      directLoad src skip_rows n_rows := by
  have hchunk : read_chunked src skip_rows n_rows =
      directLoad src skip_rows n_rows := by
    cases n_rows with
    | none =>
      show (chunkLoop src (src.length - skip_rows) 0 skip_rows).flatten =
        src.drop skip_rows
      rw [chunkLoop_flatten src (src.length - skip_rows)
        (src.length - skip_rows) 0 skip_rows (by omega), Nat.sub_zero]
      exact List.take_of_length_le (by rw [List.length_drop])
    | some n =>
      show (chunkLoop src n 0 skip_rows).flatten = (src.drop skip_rows).take n
      rw [chunkLoop_flatten src n n 0 skip_rows (by omega), Nat.sub_zero]
  refine ⟨hchunk, ?_⟩
  rw [read_sheet_data]
  by_cases hsel : size < CHUNK_THRESHOLD_BYTES ∨ n_rows ≠ none
  · rw [if_pos hsel]
  · rw [if_neg hsel, hchunk]

/-- C5: `excel_serial_to_isodate` maps NaN to `None`, passes every
serial `≤ 0` through unchanged, and on a positive serial whose
fractional part is at most `1e-9` AND whose integer part stays within
`datetime`'s year-9999 range yields the date-only ISO string of the
integer part counted from the 1899-12-30 epoch; every positive serial
whose fractional part is above `1e-9` and whose integer part plus the
possible day carry from `timedelta`'s microsecond rounding stays within
that range yields the `%Y-%m-%dT%H:%M:%S` datetime string of the
carried date and rounded second-of-day; `45000` gives `"2023-03-15"`
and `45000.5` gives `"2023-03-15T"` with the non-zero time `12:00:00`.
(The spec's unrestricted every-float claim fails past serial 2958465,
where the conversion raises `OverflowError` instead of returning a
string — also at the carry boundary, where the rounded time reaches the
next midnight past 9999-12-31: see the counterexample.) -/
theorem C5_convert_serial_cases (q : ℚ) (hqpos : 0 < q)
    (hfrac : q.num.toNat % q.den * 1000000000 ≤ q.den)
    (hbound : q.num.toNat / q.den ≤ maxSerialDay) :
    excel_serial_to_isodate .nan = .ok .null ∧
    (∀ r : ℚ, r ≤ 0 →
      excel_serial_to_isodate (.val r) = .ok (.passthrough r)) ∧
    excel_serial_to_isodate (.val q) =
      .ok (.isodate (fmtCivil (civilFromDaysNat (excelEpochShift +
        q.num.toNat / q.den)))) ∧
    (∀ p : ℚ, 0 < p →
      p.den < p.num.toNat % p.den * 1000000000 →
      p.num.toNat / p.den +
        roundHalfEvenDiv (p.num.toNat % p.den * 86400000000) p.den /
          86400000000 ≤ maxSerialDay →
      excel_serial_to_isodate (.val p) =
        .ok (.isodate (fmtCivil (civilFromDaysNat (excelEpochShift +
            p.num.toNat / p.den +
            roundHalfEvenDiv (p.num.toNat % p.den * 86400000000) p.den /
              86400000000)) ++
          "T" ++ fmtClock (roundHalfEvenDiv (p.num.toNat % p.den * 86400000000)
            p.den % 86400000000 / 1000000)))) ∧
    excel_serial_to_isodate (.val 45000) = .ok (.isodate "2023-03-15") ∧
    (excel_serial_to_isodate (.val (Rat.mk' 90001 2)) =
      .ok (.isodate ("2023-03-15T" ++ "12:00:00")) ∧
      ("12:00:00" : String) ≠ "00:00:00") := by
  refine ⟨rfl, ?_, ?_, ?_, ?_, ?_, by decide⟩
  · intro r hr
    have hnum : r.num ≤ 0 := Rat.num_nonpos.mpr hr
    simp only [excel_serial_to_isodate, if_pos hnum]
  · have hnum : ¬ q.num ≤ 0 := by
      have := Rat.num_pos.mpr hqpos
      omega
    simp only [excel_serial_to_isodate, if_neg hnum,
      if_neg (by omega : ¬ maxSerialDay < q.num.toNat / q.den),
      if_neg (by omega : ¬ q.den < q.num.toNat % q.den * 1000000000)]
  · intro p hppos hpfrac hpcarry
    have hnum : ¬ p.num ≤ 0 := by
      have := Rat.num_pos.mpr hppos
      omega
    simp only [excel_serial_to_isodate, if_neg hnum,
      if_neg (by omega : ¬ maxSerialDay < p.num.toNat / p.den),
      if_pos hpfrac,
      if_neg (by omega : ¬ maxSerialDay < p.num.toNat / p.den +
        roundHalfEvenDiv (p.num.toNat % p.den * 86400000000) p.den /
          86400000000)]
  · have h45 : excel_serial_to_isodate (.val 45000) =
        .ok (.isodate (fmtCivil (civilFromDaysNat 738899))) := rfl
    rw [h45, show civilFromDaysNat 738899 = (2023, 3, 15) from by decide]
    simp [fmtCivil, pad4, pad2, natDigits, natDigitsLoop]
  · have hhalf : excel_serial_to_isodate (.val (Rat.mk' 90001 2)) =
        .ok (.isodate (fmtCivil (civilFromDaysNat 738899) ++ "T" ++
          fmtClock 43200)) := rfl
    rw [hhalf, show civilFromDaysNat 738899 = (2023, 3, 15) from by decide]
    have hdate : fmtCivil (2023, 3, 15) = "2023-03-15" := by
      simp [fmtCivil, pad4, pad2, natDigits, natDigitsLoop]
    have hclock : fmtClock 43200 = "12:00:00" := by
      simp [fmtClock, pad2, natDigits, natDigitsLoop]
    rw [hdate, hclock]
    rfl

theorem C5_convert_serial_cases_witness :
    excel_serial_to_isodate .nan = .ok .null ∧
    (∀ r : ℚ, r ≤ 0 →
      excel_serial_to_isodate (.val r) = .ok (.passthrough r)) ∧
    excel_serial_to_isodate (.val 45000) =
      .ok (.isodate (fmtCivil (civilFromDaysNat (excelEpochShift +
        (45000 : ℚ).num.toNat / (45000 : ℚ).den)))) ∧
    (∀ p : ℚ, 0 < p →
      p.den < p.num.toNat % p.den * 1000000000 →
      p.num.toNat / p.den +
        roundHalfEvenDiv (p.num.toNat % p.den * 86400000000) p.den /
          86400000000 ≤ maxSerialDay →
      excel_serial_to_isodate (.val p) =
        .ok (.isodate (fmtCivil (civilFromDaysNat (excelEpochShift +
            p.num.toNat / p.den +
            roundHalfEvenDiv (p.num.toNat % p.den * 86400000000) p.den /
              86400000000)) ++
          "T" ++ fmtClock (roundHalfEvenDiv (p.num.toNat % p.den * 86400000000)
            p.den % 86400000000 / 1000000)))) ∧
    excel_serial_to_isodate (.val 45000) = .ok (.isodate "2023-03-15") ∧
    (excel_serial_to_isodate (.val (Rat.mk' 90001 2)) =
      .ok (.isodate ("2023-03-15T" ++ "12:00:00")) ∧
      ("12:00:00" : String) ≠ "00:00:00") :=
  C5_convert_serial_cases 45000 (by decide) (by decide) (by decide)

theorem C5_counterexample_overflow_past_9999 :
    excel_serial_to_isodate (.val 3000000) = .error "date value out of range" ∧
    (0 : Int) < (3000000 : ℚ).num ∧
    (3000000 : ℚ).num.toNat % (3000000 : ℚ).den * 1000000000 ≤
      (3000000 : ℚ).den :=
  ⟨rfl, by decide, by decide⟩

theorem nullCount_lt_iff {α : Type} (c : List (Option α)) :
    nullCount c < c.length ↔ ¬ (∀ x ∈ c, x = none) := by
  rw [nullCount, List.length_filter_lt_length_iff_exists]
  constructor
  · rintro ⟨x, hx, hnp⟩ hall
    exact hnp (by rw [hall x hx]; rfl)
  · intro hnall
    rcases not_forall.mp hnall with ⟨x, hx⟩
    rcases Classical.not_imp.mp hx with ⟨hmem, hne⟩
    exact ⟨x, hmem, fun hp => hne (Option.isNone_iff_eq_none.mp hp)⟩

/-- C9: on a rectangular frame, `apply_compact` with compaction enabled
keeps exactly the columns that are non-null in some row — i.e. drops
exactly the fully-null columns — provided at least one column survives;
with compaction disabled, and on a zero-row frame, it is a no-op.  (The
unrestricted claim fails when every column is fully null: the guard
keeps the frame unchanged instead of dropping all its columns, see the
counterexample.) -/
theorem C9_compact_drops_all_null_columns {α : Type} (df : DF α)
    (hrect : ∀ c ∈ df.cols, c.length = df.height)
    (hsome : ∃ c ∈ df.cols, ¬ (∀ x ∈ c, x = none)) :
    apply_compact df true =
      ⟨df.height, df.cols.filter fun c => nullCount c < df.height⟩ ∧
    (∀ c ∈ df.cols, (nullCount c < df.height ↔ ¬ (∀ x ∈ c, x = none))) ∧
    apply_compact df false = df ∧
    (∀ e : DF α, e.height = 0 → apply_compact e true = e) := by
  obtain ⟨c, hc, hnall⟩ := hsome
  have hkeep : nullCount c < df.height := by
    rw [← hrect c hc]
    exact (nullCount_lt_iff c).mpr hnall
  have hh : df.height ≠ 0 := by
    intro h0
    apply hnall
    intro x hx
    have := hrect c hc
    rw [h0, List.length_eq_zero] at this
    rw [this] at hx
    exact absurd hx (List.not_mem_nil x)
  refine ⟨?_, ?_, ?_, ?_⟩
  · rw [apply_compact, if_neg (by simp [hh]),
      if_neg (by
        rw [Bool.not_eq_true, List.isEmpty_eq_false]
        exact List.ne_nil_of_mem
          (List.mem_filter.mpr ⟨hc, decide_eq_true hkeep⟩))]
  · intro d hd
    rw [← hrect d hd]
    exact nullCount_lt_iff d
  · rw [apply_compact, if_pos (Or.inl rfl)]
  · intro e he
    rw [apply_compact, if_pos (Or.inr he)]

theorem C9_compact_drops_all_null_columns_witness :
    apply_compact
        (⟨2, [[some 1, some 2], [none, none], [some 3, none],
          [some 4, some 5]]⟩ : DF Nat) true =
      ⟨2, [[some 1, some 2], [some 3, none], [some 4, some 5]]⟩ ∧
    (∀ c ∈ (⟨2, [[some 1, some 2], [none, none], [some 3, none],
          [some 4, some 5]]⟩ : DF Nat).cols,
      (nullCount c < 2 ↔ ¬ (∀ x ∈ c, x = none))) ∧
    apply_compact
        (⟨2, [[some 1, some 2], [none, none], [some 3, none],
          [some 4, some 5]]⟩ : DF Nat) false =
      ⟨2, [[some 1, some 2], [none, none], [some 3, none],
        [some 4, some 5]]⟩ ∧
    (∀ e : DF Nat, e.height = 0 → apply_compact e true = e) :=
  C9_compact_drops_all_null_columns
    (⟨2, [[some 1, some 2], [none, none], [some 3, none],
      [some 4, some 5]]⟩ : DF Nat)
    (by intro c hc; fin_cases hc <;> rfl)
    (by decide)

theorem C9_counterexample_single_all_null_column :
    apply_compact (⟨2, [[none, none]]⟩ : DF Nat) true = ⟨2, [[none, none]]⟩ ∧
    (([[none, none]] : List (List (Option Nat))).filter
      fun c => nullCount c < 2) = [] ∧
    (⟨2, [[none, none]]⟩ : DF Nat) ≠ ⟨2, []⟩ :=
  ⟨by decide, by decide, by decide⟩

/-- C10: compaction never empties a non-empty frame — when every column
of a rectangular frame with at least one row is fully null, the
no-surviving-column guard returns the frame unchanged with all of its
columns — and `apply_compact` preserves the row count on every input. -/
theorem C10_compact_preserves_nonempty_and_height {α : Type} (df : DF α)
    (hrect : ∀ c ∈ df.cols, c.length = df.height)
    (hallnull : ∀ c ∈ df.cols, ∀ x ∈ c, x = none)
    (hpos : 1 ≤ df.height) :
    apply_compact df true = df ∧
    (∀ (e : DF α) (b : Bool), (apply_compact e b).height = e.height) := by
  refine ⟨?_, ?_⟩
  · have hfil : (df.cols.filter fun c => nullCount c < df.height) = [] := by
      apply List.filter_eq_nil.mpr
      intro c hc
      rw [decide_eq_true_eq]
      have hcnt : nullCount c = df.height := by
        rw [nullCount, List.filter_eq_self.mpr, hrect c hc]
        intro x hx
        rw [hallnull c hc x hx]
        rfl
      omega
    have hcond : ¬ (true = false ∨ df.height = 0) := by
      rintro (h | h)
      · exact absurd h (by decide)
      · omega
    rw [apply_compact, if_neg hcond, hfil]
    rfl
  · intro e b
    rw [apply_compact]
    split
    · rfl
    · split
      · rfl
      · rfl

theorem C10_compact_preserves_nonempty_and_height_witness :
    apply_compact (⟨1, [[none], [none]]⟩ : DF Nat) true =
      ⟨1, [[none], [none]]⟩ ∧
    (∀ (e : DF Nat) (b : Bool), (apply_compact e b).height = e.height) :=
  C10_compact_preserves_nonempty_and_height (⟨1, [[none], [none]]⟩ : DF Nat)
    (by intro c hc; fin_cases hc <;> rfl) (by decide) (by decide)

